import Mathlib

/-!
Shallow embedding of `scrm` (Size-Constrained Region Merging, `src/scrm/scrm.py`)
and the skimage RAG helpers it calls, together with proofs of the specified
properties of the merge engine.

Modelling conventions:
* a region-adjacency graph (`RAG`) is an association list of node records plus
  an association list of undirected edges keyed by the normalized (sorted) pair
  of endpoint ids, mirroring the networkx graph used by the source;
* Python integers are `Int`, per-channel color accumulators are `ℚ`
  (the float arithmetic of the source is exact on the integer-derived values
  the claims are about);
* the mutable heap items `[wt, n1, n2, valid]` of the source, whose validity
  slot is shared by aliasing between the heap and the edge data (`'heap item'`),
  are modelled by giving every pushed item a fresh id: the heap stores
  `(weight, n1, n2, id)`, the edge data stores the id of its current item, and
  a global map `Nat → Bool` holds the validity slot of every item;
* `heapq` is modelled by its contract: popping returns a minimal element in the
  lexicographic order on `(weight, n1, n2)` (the source's list comparison uses
  the validity flag as a final tiebreak between otherwise equal items; no claim
  depends on the pop order among equal keys);
* Python runtime errors relevant to the claims (`ZeroDivisionError` at
  `total_area // dms`) are modelled with `Except`; `KeyError` paths that are
  unreachable in actual runs are totalized and marked in comments.
-/

namespace Scrm

/-- Node attributes of the RAG: `'pixel count'`, `'total color'`,
`'mean color'`, `'labels'` (per `skimage.future.graph.rag_mean_color`). -/
structure Region where
  pixelCount : Int
  totalColor : List ℚ
  meanColor : List ℚ
  labels : List Nat
deriving DecidableEq

/-- Edge attributes: `'weight'` and the optional `'heap item'` reference,
modelled as the id of the heap item the edge currently points at. -/
structure EdgeData where
  weight : ℚ
  heapItem : Option Nat
deriving DecidableEq

/-- Normalized key of the undirected edge `{a, b}`. -/
def ekey (a b : Nat) : Nat × Nat := if a ≤ b then (a, b) else (b, a)

/-- The region adjacency graph: nodes, edges and the two graph-level counters
`'num_ge_mmu'` and `'area_lt_mmu'` stored in `rag.graph` by
`merge_size_constrained`, plus the `max_id` bookkeeping of skimage's RAG. -/
structure RAG where
  nodes : List (Nat × Region)
  edges : List ((Nat × Nat) × EdgeData)
  maxId : Nat
  numGeMmu : Int
  areaLtMmu : Int
deriving DecidableEq

def getNode (g : RAG) (n : Nat) : Option Region :=
  (g.nodes.find? (fun p => decide (p.1 = n))).map (·.2)

/-- Overwrite the attributes of node `n` (it must exist; missing ids leave the
graph unchanged where Python would raise `KeyError`). -/
def setNode (g : RAG) (n : Nat) (r : Region) : RAG :=
  { g with nodes := g.nodes.map (fun p => if p.1 = n then (n, r) else p) }

/-- `RAG.add_node`: appends the node (Python dicts append new keys at the end)
and updates `max_id`. -/
def addNode (g : RAG) (n : Nat) (r : Region) : RAG :=
  { g with nodes := g.nodes ++ [(n, r)], maxId := max g.maxId n }

/-- `RAG._add_node_silent` followed by `nodes[copy].update(attrs)`: inserts or
overwrites the node without touching `max_id`. -/
def addNodeSilent (g : RAG) (n : Nat) (r : Region) : RAG :=
  match getNode g n with
  | some _ => setNode g n r
  | none => { g with nodes := g.nodes ++ [(n, r)] }

/-- `remove_node`: deletes the node and every incident edge. -/
def removeNode (g : RAG) (n : Nat) : RAG :=
  { g with
    nodes := g.nodes.filter (fun p => decide (p.1 ≠ n))
    edges := g.edges.filter (fun e => decide (e.1.1 ≠ n ∧ e.1.2 ≠ n)) }

def getEdge (g : RAG) (a b : Nat) : Option EdgeData :=
  (g.edges.find? (fun e => decide (e.1 = ekey a b))).map (·.2)

/-- Replace the data dict of the edge `{a, b}` (no change if absent). -/
def setEdgeData (g : RAG) (a b : Nat) (d : EdgeData) : RAG :=
  { g with edges := g.edges.map (fun e => if e.1 = ekey a b then (e.1, d) else e) }

/-- `RAG.add_edge(a, b, {'weight': w})`: networkx merges attribute dicts, so an
existing edge keeps its `'heap item'` reference and only the weight changes; a
fresh edge has no `'heap item'` yet.  skimage's RAG also refreshes `max_id`. -/
def addEdgeWeight (g : RAG) (a b : Nat) (w : ℚ) : RAG :=
  match getEdge g a b with
  | some d =>
    let g1 := setEdgeData g a b { d with weight := w }
    { g1 with maxId := max (max a b) g1.maxId }
  | none =>
    { g with
      edges := (ekey a b, ⟨w, none⟩) :: g.edges
      maxId := max (max a b) g.maxId }

/-- `rag.neighbors n`: the other endpoint of every edge incident to `n`. -/
def neighbors (g : RAG) (n : Nat) : List Nat :=
  g.edges.filterMap (fun e =>
    if e.1.1 = n then some e.1.2 else if e.1.2 = n then some e.1.1 else none)

/-- A heap item `[weight, n1, n2, valid]`; the mutable validity slot is stored
externally (see `LoopState.valid`) under the item's id `eid`. -/
structure Entry where
  weight : ℚ
  n1 : Nat
  n2 : Nat
  eid : Nat
deriving DecidableEq

/-- Lexicographic comparison on `(weight, n1, n2)`, the order `heapq` pops
items in (the validity slot only breaks ties between otherwise equal items). -/
def entryLE (a b : Entry) : Prop :=
  a.weight < b.weight ∨
    (a.weight = b.weight ∧ (a.n1 < b.n1 ∨ (a.n1 = b.n1 ∧ a.n2 ≤ b.n2)))

instance entryLE.decidable (a b : Entry) : Decidable (entryLE a b) :=
  inferInstanceAs (Decidable (a.weight < b.weight ∨
    (a.weight = b.weight ∧ (a.n1 < b.n1 ∨ (a.n1 = b.n1 ∧ a.n2 ≤ b.n2)))))

/-- `heapq.heappop`: return a minimal element and the remaining items. -/
def popMin : List Entry → Option (Entry × List Entry)
  | [] => none
  | e :: es =>
    match popMin es with
    | none => some (e, [])
    | some (m, rest) => if entryLE e m then some (e, es) else some (m, e :: rest)

/-- The loop state of `merge_size_constrained`: the graph, the `edge_heap`,
the validity slots of all heap items ever created, the next fresh item id, and
the `partial_stop` latch. -/
structure LoopState where
  rag : RAG
  heap : List Entry
  valid : Nat → Bool
  nextEid : Nat
  stopLatch : Bool

/-- The merge callback type: `merge_func(graph, src, dst, mmu)`. -/
def MergeFn := RAG → Nat → Nat → Int → RAG

/-- The weight callback type: `weight_func(graph, src, new, neighbor)` returns
the `'weight'` value of the refreshed edge. -/
def WeightFn := RAG → Nat → Nat → Nat → ℚ

/-- `_invalidate_edge(graph, n1, n2)`: flips the validity slot of the edge's
current heap item to `False`.  A missing edge or missing `'heap item'` key
would raise `KeyError` in Python; both are unreachable at the call sites
(every neighbor relation comes with an edge that carries a heap item) and are
totalized as no-ops. -/
def invalidateEdgeSlot (g : RAG) (vmap : Nat → Bool) (a b : Nat) : Nat → Bool :=
  match getEdge g a b with
  | some d =>
    match d.heapItem with
    | some i => fun j => if j = i then false else vmap j
    | none => vmap
  | none => vmap

/-- Lines 149-153: `for nbr in rag.neighbors(n): _invalidate_edge(rag, n, nbr)`. -/
def invalidateNeighbors (g : RAG) (vmap : Nat → Bool) (n : Nat) : Nat → Bool :=
  (neighbors g n).foldl (fun v nbr => invalidateEdgeSlot g v n nbr) vmap

/-- `graph_merge._rename_node(graph, node, copyId)`: copy the node's attributes
onto `copyId` (via `_add_node_silent`, which does not refresh `max_id`), copy
every incident edge's weight onto an edge `{nbr, copyId}` (fresh data dicts,
so no `'heap item'`), then remove the original node.  A missing `node` would
raise `KeyError` in Python (unreachable at the call site). -/
def rename_node (g : RAG) (node copyId : Nat) : RAG :=
  match getNode g node with
  | none => g
  | some r =>
    let g1 := addNodeSilent g copyId r
    let g2 := (neighbors g1 node).foldl (fun h nbr =>
        match getEdge h node nbr with
        | some d => addEdgeWeight h nbr copyId d.weight
        | none => h) g1
    removeNode g2 node

/-- `RAG.merge_nodes(src, dst, weight_func, in_place)` (skimage): collect the
union of both neighbor sets minus the merged pair, pick the surviving id
(`dst` when in place, else a fresh id holding empty attributes until the
`'labels'` assignment), refresh each incident edge's weight through
`weight_func` on the evolving graph, concatenate the `'labels'` lists, and
remove the consumed node(s).  `merge_size_constrained` always calls this with
the default `in_place=True`.  Python iterates the neighbor set in unspecified
order; the list below fixes one order, which no result depends on. -/
def mergeAddStep (src new : Nat) (wf : WeightFn) (h : RAG) (nbr : Nat) : RAG :=
  addEdgeWeight h nbr new (wf h src new nbr)

def merge_nodes (g : RAG) (src dst : Nat) (wf : WeightFn) (inPlaceMN : Bool) :
    RAG × Nat :=
  let nbrs := (neighbors g src ++ neighbors g dst).dedup.filter
    (fun x => decide (x ≠ src ∧ x ≠ dst))
  let gnew := if inPlaceMN then (g, dst)
    else
      let nid := g.maxId + 1
      (addNode g nid ⟨0, [], [], []⟩, nid)
  let g1 := gnew.1
  let new := gnew.2
  let g2 := nbrs.foldl (mergeAddStep src new wf) g1
  let g3 := match getNode g2 src, getNode g2 new with
    | some rs, some rn => setNode g2 new { rn with labels := rs.labels ++ rn.labels }
    | _, _ => g2
  let g4 := removeNode g3 src
  (if inPlaceMN then g4 else removeNode g4 dst, new)

/-- `graph_merge._revalidate_node_edges(rag, node, heap_list)`: for every
neighbor of `node`, invalidate the edge's lingering heap item if it has one
(`try/except KeyError`), push a fresh valid item for the current weight and
store its reference in the edge data. -/
def revalStep (node : Nat) (acc : RAG × List Entry × (Nat → Bool) × Nat)
    (nbr : Nat) : RAG × List Entry × (Nat → Bool) × Nat :=
  match getEdge acc.1 node nbr with
  | none => acc
  | some d =>
    let eid := acc.2.2.2
    let vm1 : Nat → Bool := match d.heapItem with
      | some i => fun j => if j = i then false else acc.2.2.1 j
      | none => acc.2.2.1
    ⟨setEdgeData acc.1 node nbr { d with heapItem := some eid },
     ⟨d.weight, node, nbr, eid⟩ :: acc.2.1,
     (fun j => if j = eid then true else vm1 j),
     eid + 1⟩

def revalidate_node_edges (node : Nat) (g : RAG) (heap : List Entry)
    (vmap : Nat → Bool) (nextEid : Nat) :
    RAG × List Entry × (Nat → Bool) × Nat :=
  (neighbors g node).foldl (revalStep node) ⟨g, heap, vmap, nextEid⟩

/-- Indicator used for the Python booleans-as-integers arithmetic of
`merge_scrm` (lines 223-227). -/
def ind (p : Prop) [Decidable p] : Int := if p then 1 else 0

/-- Embedding of `merge_scrm` (lines 201-230): accumulate `src`'s color sum and
pixel count into `dst`, recompute `dst`'s mean color, and apply the incremental
deltas to the two graph-level counters.  Missing nodes would raise `KeyError`
in Python (unreachable: the caller only merges live pairs). -/
def merge_scrm (g : RAG) (src dst : Nat) (mmu : Int) : RAG :=
  match getNode g src, getNode g dst with
  | some rs, some rd =>
    let srcArea := rs.pixelCount
    let dstArea := rd.pixelCount
    let totalColor := List.zipWith (· + ·) rd.totalColor rs.totalColor
    let pixelCount := rd.pixelCount + rs.pixelCount
    let meanColor := totalColor.map (fun c => c / (pixelCount : ℚ))
    let g1 := setNode g dst
      { rd with totalColor := totalColor, pixelCount := pixelCount, meanColor := meanColor }
    let newArea := pixelCount
    let dNumGeMmu := ind (newArea ≥ mmu) - ind (srcArea ≥ mmu) - ind (dstArea ≥ mmu)
    let dAreaLtMmu := ind (newArea < mmu) * newArea - ind (srcArea < mmu) * srcArea -
      ind (dstArea < mmu) * dstArea
    { g1 with
      numGeMmu := g1.numGeMmu + dNumGeMmu
      areaLtMmu := g1.areaLtMmu + dAreaLtMmu }
  | _, _ => g

/-- Lines 133-144: the size-constraint re-check of a popped pair, starting
from `valid = True` and flipping to `False` when a rule fires. -/
def sizeValid (mas mmu : Int) (stopLatch : Bool) (a1 a2 : Int) : Bool :=
  let v := true
  let v := if a1 > mas ∧ a2 > mas then false else v
  let v := if a1 > mas ∧ a2 > mmu then false else v
  let v := if a1 > mmu ∧ a2 > mas then false else v
  let v := if stopLatch = true ∧ a1 ≥ mmu ∧ a2 ≥ mmu then false else v
  v

/-- `rag.nodes[n]['pixel count']`; a dead id would raise `KeyError` in Python
(the loop only reads areas of pairs whose popped item is still valid, and those
are live). -/
def nodeArea (g : RAG) (n : Nat) : Int :=
  ((getNode g n).map (·.pixelCount)).getD 0

/-- Lines 114-118: the `partial_stop` latch update performed on every
iteration.  `area_lt_mmu / dms` is Python float division of two integers,
modelled exactly in `ℚ`. -/
def latchUpdate (dms expFinalNum : Int) (s : LoopState) : Bool :=
  if ((s.rag.numGeMmu : ℚ) + (s.rag.areaLtMmu : ℚ) / (dms : ℚ) < (expFinalNum : ℚ))
      ∧ s.stopLatch = false
  then true else s.stopLatch

/-- One iteration of the main loop (lines 111-164): pop a minimal item, update
the latch, re-check validity and size constraints, and either discard the item
or perform the merge (invalidate both neighborhoods, optionally rename `n2` to
a fresh id, run `merge_func`, `merge_nodes`, then revalidate the surviving
node's edges). -/
def step (mergeFn : MergeFn) (wf : WeightFn) (inPlaceMerge : Bool)
    (mas mmu dms expFinalNum : Int) (s : LoopState) : LoopState :=
  match popMin s.heap with
  | none => s
  | some (e, rest) =>
    let stop := latchUpdate dms expFinalNum s
    let vFlag := s.valid e.eid
    let a1 := nodeArea s.rag e.n1
    let a2 := nodeArea s.rag e.n2
    let v := if vFlag then sizeValid mas mmu stop a1 a2 else vFlag
    if v then
      let vm1 := invalidateNeighbors s.rag s.valid e.n1
      let vm2 := invalidateNeighbors s.rag vm1 e.n2
      let gsd :=
        if inPlaceMerge then (s.rag, e.n1, e.n2)
        else (rename_node s.rag e.n2 (s.rag.maxId + 1), e.n1, s.rag.maxId + 1)
      let g1 := mergeFn gsd.1 gsd.2.1 gsd.2.2 mmu
      let gnew := merge_nodes g1 gsd.2.1 gsd.2.2 wf true
      let z := revalidate_node_edges gnew.2 gnew.1 rest vm2 s.nextEid
      ⟨z.1, z.2.1, z.2.2.1, z.2.2.2, stop⟩
    else
      ⟨s.rag, rest, s.valid, s.nextEid, stop⟩

/-- The `while len(edge_heap) > 0` loop, with explicit fuel; `mscFuel` below is
enough fuel for the loop to exhaust the heap on well-formed inputs (C7). -/
def loop (mergeFn : MergeFn) (wf : WeightFn) (inPlaceMerge : Bool)
    (mas mmu dms expFinalNum : Int) : Nat → LoopState → LoopState
  | 0, s => s
  | Nat.succ k, s =>
    if s.heap = [] then s
    else loop mergeFn wf inPlaceMerge mas mmu dms expFinalNum k
      (step mergeFn wf inPlaceMerge mas mmu dms expFinalNum s)

/-- Lines 84-97: `rag.graph.update({'num_ge_mmu': 0, 'area_lt_mmu': 0})`
followed by the initialization scan over all regions. -/
def initAggStep (mmu : Int) (h : RAG) (p : Nat × Region) : RAG :=
  if p.2.pixelCount < mmu then { h with areaLtMmu := h.areaLtMmu + p.2.pixelCount }
  else { h with numGeMmu := h.numGeMmu + 1 }

def initAggregates (mmu : Int) (g : RAG) : RAG :=
  g.nodes.foldl (initAggStep mmu) { g with numGeMmu := 0, areaLtMmu := 0 }

/-- The `total_area` accumulation of the same scan (line 93). -/
def totalAreaOf (g : RAG) : Int :=
  g.nodes.foldl (fun a p => a + p.2.pixelCount) 0

/-- Lines 101-108: push one valid item per edge and store its reference in the
edge data, then start the loop with `partial_stop = False`. -/
def initHeapStep (s : LoopState) (ed : (Nat × Nat) × EdgeData) : LoopState :=
  ⟨setEdgeData s.rag ed.1.1 ed.1.2 { ed.2 with heapItem := some s.nextEid },
   ⟨ed.2.weight, ed.1.1, ed.1.2, s.nextEid⟩ :: s.heap,
   (fun j => if j = s.nextEid then true else s.valid j),
   s.nextEid + 1, s.stopLatch⟩

def initHeap (g : RAG) : LoopState :=
  g.edges.foldl initHeapStep ⟨g, [], (fun _ => false), 0, false⟩

/-- Aggregate initialization followed by heap initialization: the loop state
that the main loop starts from. -/
def initState (mmu : Int) (g : RAG) : LoopState :=
  initHeap (initAggregates mmu g)

/-- Fuel that exhausts the heap on well-formed inputs (see C7): every
discarded item shrinks the heap, and every merge removes a live node while
pushing fewer items than there are remaining nodes. -/
def mscFuel (s : LoopState) : Nat :=
  s.heap.length + s.rag.nodes.length * s.rag.nodes.length

/-- Lines 166-169: `label_map = np.arange(labels.max() + 1)` then
`label_map[label] = ix` for every label absorbed by the `ix`-th surviving
region (enumeration order). -/
def labelMapFun (nodes : List (Nat × Region)) : Nat → Nat :=
  nodes.enum.foldl
    (fun f p => p.2.2.labels.foldl (fun h lab => fun x => if x = lab then p.1 else h x) f)
    id

/-- The Python runtime errors `merge_size_constrained` can raise given valid
graph input: `ZeroDivisionError` from `total_area // dms` at line 99. -/
inductive PyError where
  | zeroDivision
deriving DecidableEq

/-- Embedding of `merge_size_constrained` (lines 43-171).  `rag_copy` only
chooses whether to mutate the caller's graph, which a pure model cannot
observe.  The division `total_area // dms` is Python floor division and raises
`ZeroDivisionError` when `dms = 0` — this is the only runtime failure of the
routine (no parameter validation exists); it fires after the aggregate
initialization scan and before the heap is built and the main loop runs. -/
def merge_size_constrained (labels : List Nat) (rag : RAG)
    (dms mas mmu : Int) (ragCopy inPlaceMerge : Bool)
    (mergeFn : MergeFn) (wf : WeightFn) : Except PyError (List Nat) :=
  let rag := if ragCopy then rag else rag
  let rag1 := initAggregates mmu rag
  let totalArea := totalAreaOf rag
  if dms = 0 then Except.error PyError.zeroDivision
  else
    let expFinalNum := Int.fdiv totalArea dms
    let s0 := initHeap rag1
    let sF := loop mergeFn wf inPlaceMerge mas mmu dms expFinalNum (mscFuel s0) s0
    Except.ok (labels.map (labelMapFun sF.rag.nodes))

/-- `np.int16` cast of a non-negative integer: wrap modulo `2 ^ 16` into the
signed range `[-32768, 32767]` (line 38, `.astype(np.int16)`). -/
def toInt16 (v : Int) : Int := (v + 32768) % 65536 - 32768

/-- Embedding of the top level `scrm` (lines 10-40).  Building the initial RAG
(`graph.rag_mean_color`) is an external collaborator and is taken as an input;
the weight callback `weight_scrm` computes a real-valued Euclidean norm and is
abstracted as `wf` (no claim depends on concrete edge-weight values).  `scrm`
calls `merge_size_constrained` with `rag_copy=False`, `in_place_merge=True`,
`merge_func=merge_scrm` and casts the result to `np.int16`. -/
def scrm (labels : List Nat) (rag : RAG) (wf : WeightFn) (dms mas mmu : Int) :
    Except PyError (List Int) :=
  (merge_size_constrained labels rag dms mas mmu false true merge_scrm wf).map
    (fun out => out.map (fun v : Nat => toInt16 (v : Int)))

/-! From-scratch aggregate recomputations, used to state the invariants. -/

/-- Number of live regions whose pixel count is at least `mmu`. -/
def numGeScratch (nodes : List (Nat × Region)) (mmu : Int) : Int :=
  ((nodes.filter (fun p => decide (p.2.pixelCount ≥ mmu))).length : Int)

/-- Total pixel count held in live regions smaller than `mmu`. -/
def areaLtScratch (nodes : List (Nat × Region)) (mmu : Int) : Int :=
  ((nodes.filter (fun p => decide (p.2.pixelCount < mmu))).map (·.2.pixelCount)).sum

/-- Sum of the pixel counts of all live regions. -/
def areaSum (nodes : List (Nat × Region)) : Int :=
  (nodes.map (·.2.pixelCount)).sum

/-! ## Well-formedness and the loop invariant -/

def nodeKeys (g : RAG) : List Nat := g.nodes.map (·.1)

def edgeKeys (g : RAG) : List (Nat × Nat) := g.edges.map (·.1)

/-- Well-formedness of the graph, as produced by `rag_mean_color`: node ids
are distinct, edge keys are normalized (`fst < snd`, so no self loops),
distinct, and join live nodes. -/
structure GraphWF (g : RAG) : Prop where
  nodesNodup : (nodeKeys g).Nodup
  edgeNorm : ∀ e ∈ g.edges, e.1.1 < e.1.2
  edgeLiveL : ∀ e ∈ g.edges, e.1.1 ∈ nodeKeys g
  edgeLiveR : ∀ e ∈ g.edges, e.1.2 ∈ nodeKeys g
  edgesNodup : (edgeKeys g).Nodup

/-- The loop invariant: the graph stays well formed, every heap item whose
validity slot is still `True` is the item currently referenced by a live edge
between its two endpoints, item ids are below the freshness bound, and the two
graph counters agree with their from-scratch recomputation while the total
live area stays at `A`. -/
structure Inv (mmu A : Int) (s : LoopState) : Prop where
  wf : GraphWF s.rag
  heapEdge : ∀ e ∈ s.heap, s.valid e.eid = true →
    ∃ d, getEdge s.rag e.n1 e.n2 = some d ∧ d.heapItem = some e.eid
  heapFresh : ∀ e ∈ s.heap, e.eid < s.nextEid
  edgeFresh : ∀ ed ∈ s.rag.edges, ∀ i, ed.2.heapItem = some i → i < s.nextEid
  aggNum : s.rag.numGeMmu = numGeScratch s.rag.nodes mmu
  aggArea : s.rag.areaLtMmu = areaLtScratch s.rag.nodes mmu
  area : areaSum s.rag.nodes = A

/-! ## Basic lemmas about keys, lookups and neighborhoods -/

theorem ekey_or (a b : Nat) : ekey a b = (a, b) ∨ ekey a b = (b, a) := by
  unfold ekey; split
  · exact Or.inl rfl
  · exact Or.inr rfl

theorem ekey_eq_elim {a b c d : Nat} (h : ekey a b = ekey c d) :
    (a = c ∧ b = d) ∨ (a = d ∧ b = c) := by
  unfold ekey at h
  split at h <;> split at h <;> (simp only [Prod.mk.injEq] at h; omega)

theorem ekey_lt {a b : Nat} (h : a ≠ b) : (ekey a b).1 < (ekey a b).2 := by
  unfold ekey; split <;> simp <;> omega

theorem ekey_of_lt {a b : Nat} (h : a < b) : ekey a b = (a, b) := by
  unfold ekey; rw [if_pos (Nat.le_of_lt h)]

theorem ekey_of_gt {a b : Nat} (h : b < a) : ekey a b = (b, a) := by
  unfold ekey; rw [if_neg (by omega)]

theorem ekey_left_eq {a b c : Nat} (h : ekey a b = ekey a c) : b = c := by
  rcases ekey_eq_elim h with ⟨h1, h2⟩ | ⟨h1, h2⟩ <;> omega

theorem find?_key_eq {κ α : Type} [DecidableEq κ] {l : List (κ × α)} {k : κ}
    {d : α} (hnd : (l.map (·.1)).Nodup) (hm : (k, d) ∈ l) :
    l.find? (fun e => decide (e.1 = k)) = some (k, d) := by
  induction l with
  | nil => cases hm
  | cons p t ih =>
    simp only [List.map_cons, List.nodup_cons] at hnd
    by_cases hp : p.1 = k
    · have hpd : p = (k, d) := by
        rcases List.mem_cons.mp hm with h | h
        · exact h.symm
        · exact absurd (hp ▸ List.mem_map_of_mem (·.1) h) hnd.1
      rw [List.find?_cons_of_pos _ (by simp [hp])]
      rw [hpd]
    · rw [List.find?_cons_of_neg _ (by simp [hp])]
      exact ih hnd.2 (by
        rcases List.mem_cons.mp hm with h | h
        · exact absurd (congrArg Prod.fst h.symm) hp
        · exact h)

theorem find?_key_mem {κ α : Type} [DecidableEq κ] {l : List (κ × α)} {k : κ}
    {x : κ × α} (h : l.find? (fun e => decide (e.1 = k)) = some x) :
    x ∈ l ∧ x.1 = k := by
  refine ⟨List.mem_of_find?_eq_some h, ?_⟩
  have h2 := List.find?_some h
  exact of_decide_eq_true h2

theorem mem_of_getNode {g : RAG} {n : Nat} {r : Region}
    (h : getNode g n = some r) : (n, r) ∈ g.nodes := by
  unfold getNode at h
  cases hf : g.nodes.find? (fun p => decide (p.1 = n)) with
  | none => rw [hf] at h; cases h
  | some x =>
    rw [hf] at h
    obtain ⟨hmem, hk⟩ := find?_key_mem hf
    obtain ⟨xk, xd⟩ := x
    have hk' : xk = n := hk
    have hd : xd = r := Option.some.inj h
    rw [← hk', ← hd]
    exact hmem

theorem getNode_eq_of_mem {g : RAG} {n : Nat} {r : Region}
    (hnd : (nodeKeys g).Nodup) (hm : (n, r) ∈ g.nodes) :
    getNode g n = some r := by
  unfold getNode
  rw [find?_key_eq hnd hm]
  rfl

theorem getNode_isSome_of_mem_keys {g : RAG} {n : Nat}
    (hnd : (nodeKeys g).Nodup) (h : n ∈ nodeKeys g) :
    ∃ r, getNode g n = some r := by
  unfold nodeKeys at h
  obtain ⟨p, hp, hk⟩ := List.mem_map.mp h
  exact ⟨p.2, getNode_eq_of_mem hnd (by cases p; cases hk; exact hp)⟩

theorem mem_of_getEdge {g : RAG} {a b : Nat} {d : EdgeData}
    (h : getEdge g a b = some d) : (ekey a b, d) ∈ g.edges := by
  unfold getEdge at h
  cases hf : g.edges.find? (fun e => decide (e.1 = ekey a b)) with
  | none => rw [hf] at h; cases h
  | some x =>
    rw [hf] at h
    obtain ⟨hmem, hk⟩ := find?_key_mem hf
    obtain ⟨xk, xd⟩ := x
    have hk' : xk = ekey a b := hk
    have hd : xd = d := Option.some.inj h
    rw [← hk', ← hd]
    exact hmem

theorem getEdge_eq_of_mem {g : RAG} {a b : Nat} {d : EdgeData}
    (hnd : (edgeKeys g).Nodup) (hm : (ekey a b, d) ∈ g.edges) :
    getEdge g a b = some d := by
  unfold getEdge
  rw [find?_key_eq hnd hm]
  rfl

theorem getEdge_comm (g : RAG) (a b : Nat) : getEdge g a b = getEdge g b a := by
  unfold getEdge
  have : ekey a b = ekey b a := by
    unfold ekey; split <;> split <;> first | rfl | (simp only [Prod.mk.injEq]; omega)
  rw [this]

theorem mem_neighbors_elim {g : RAG} {n m : Nat} (h : m ∈ neighbors g n) :
    ∃ e ∈ g.edges, (e.1.1 = n ∧ e.1.2 = m) ∨ (e.1.1 = m ∧ e.1.2 = n) := by
  unfold neighbors at h
  obtain ⟨e, he, hval⟩ := List.mem_filterMap.mp h
  refine ⟨e, he, ?_⟩
  by_cases h1 : e.1.1 = n
  · rw [if_pos h1] at hval
    exact Or.inl ⟨h1, by injection hval⟩
  · rw [if_neg h1] at hval
    by_cases h2 : e.1.2 = n
    · rw [if_pos h2] at hval
      exact Or.inr ⟨by injection hval, h2⟩
    · rw [if_neg h2] at hval; cases hval

theorem mem_neighbors_intro_l {g : RAG} {e : (Nat × Nat) × EdgeData}
    (he : e ∈ g.edges) (h : e.1.1 = n) : e.1.2 ∈ neighbors g n := by
  unfold neighbors
  exact List.mem_filterMap.mpr ⟨e, he, by rw [if_pos h]⟩

theorem mem_neighbors_intro_r {g : RAG} {e : (Nat × Nat) × EdgeData}
    (he : e ∈ g.edges) (h : e.1.2 = n) (hne : e.1.1 ≠ n) :
    e.1.1 ∈ neighbors g n := by
  unfold neighbors
  exact List.mem_filterMap.mpr ⟨e, he, by rw [if_neg hne, if_pos h]⟩

theorem getEdge_of_mem_neighbors {g : RAG} (hWF : GraphWF g) {n m : Nat}
    (h : m ∈ neighbors g n) : ∃ d, getEdge g n m = some d := by
  obtain ⟨e, he, hor⟩ := mem_neighbors_elim h
  have hnorm := hWF.edgeNorm e he
  rcases hor with ⟨h1, h2⟩ | ⟨h1, h2⟩
  · refine ⟨e.2, getEdge_eq_of_mem hWF.edgesNodup ?_⟩
    have : ekey n m = e.1 := by
      rw [← h1, ← h2]; exact (ekey_of_lt hnorm).trans (by cases e.1; rfl)
    rw [this]; exact (by cases e; exact he)
  · refine ⟨e.2, getEdge_eq_of_mem hWF.edgesNodup ?_⟩
    have : ekey n m = e.1 := by
      rw [← h1, ← h2]
      exact (ekey_of_gt hnorm).trans (by cases e.1; rfl)
    rw [this]; exact (by cases e; exact he)

theorem neighbors_ne {g : RAG} (hWF : GraphWF g) {n m : Nat}
    (h : m ∈ neighbors g n) : m ≠ n := by
  obtain ⟨e, he, hor⟩ := mem_neighbors_elim h
  have hnorm := hWF.edgeNorm e he
  rcases hor with ⟨h1, h2⟩ | ⟨h1, h2⟩ <;> omega

theorem neighbors_live {g : RAG} (hWF : GraphWF g) {n m : Nat}
    (h : m ∈ neighbors g n) : m ∈ nodeKeys g := by
  obtain ⟨e, he, hor⟩ := mem_neighbors_elim h
  rcases hor with ⟨h1, h2⟩ | ⟨h1, h2⟩
  · exact h2 ▸ hWF.edgeLiveR e he
  · exact h1 ▸ hWF.edgeLiveL e he

/-! ## Sums over the node store and the scratch recomputations -/

def sumBy (f : Region → Int) (l : List (Nat × Region)) : Int :=
  (l.map (fun p => f p.2)).sum

def setNodeList (l : List (Nat × Region)) (n : Nat) (r : Region) :
    List (Nat × Region) :=
  l.map (fun p => if p.1 = n then (n, r) else p)

def eraseKeyList (l : List (Nat × Region)) (n : Nat) : List (Nat × Region) :=
  l.filter (fun p => decide (p.1 ≠ n))

theorem setNode_nodes (g : RAG) (n : Nat) (r : Region) :
    (setNode g n r).nodes = setNodeList g.nodes n r := rfl

theorem removeNode_nodes (g : RAG) (n : Nat) :
    (removeNode g n).nodes = eraseKeyList g.nodes n := rfl

theorem setNodeList_of_not_mem {l : List (Nat × Region)} {n : Nat} {r : Region}
    (h : ∀ q ∈ l, q.1 ≠ n) : setNodeList l n r = l := by
  induction l with
  | nil => rfl
  | cons p t ih =>
    unfold setNodeList
    rw [List.map_cons, if_neg (h p (List.mem_cons_self p t))]
    have := ih (fun q hq => h q (List.mem_cons_of_mem p hq))
    unfold setNodeList at this
    rw [this]

theorem keys_setNodeList (l : List (Nat × Region)) (n : Nat) (r : Region) :
    (setNodeList l n r).map (·.1) = l.map (·.1) := by
  induction l with
  | nil => rfl
  | cons p t ih =>
    unfold setNodeList at ih ⊢
    rw [List.map_cons, List.map_cons, List.map_cons]
    by_cases h : p.1 = n
    · rw [if_pos h, ih]; simp [h]
    · rw [if_neg h, ih]

theorem keys_eraseKeyList (l : List (Nat × Region)) (n : Nat) :
    (eraseKeyList l n).map (·.1) = (l.map (·.1)).filter (fun k => decide (k ≠ n)) := by
  unfold eraseKeyList
  rw [List.filter_map]
  rfl

theorem mem_setNodeList_self {l : List (Nat × Region)} {n : Nat} {r₀ : Region}
    (hm : (n, r₀) ∈ l) (r : Region) : (n, r) ∈ setNodeList l n r := by
  unfold setNodeList
  have := List.mem_map_of_mem (fun p => if p.1 = n then (n, r) else p) hm
  simpa using this

theorem mem_setNodeList_other {l : List (Nat × Region)} {m n : Nat} {r' : Region}
    (hm : (m, r') ∈ l) (hne : m ≠ n) (r : Region) : (m, r') ∈ setNodeList l n r := by
  unfold setNodeList
  have := List.mem_map_of_mem (fun p => if p.1 = n then (n, r) else p) hm
  simpa [hne] using this

theorem mem_eraseKeyList_other {l : List (Nat × Region)} {m n : Nat} {r' : Region}
    (hm : (m, r') ∈ l) (hne : m ≠ n) : (m, r') ∈ eraseKeyList l n := by
  unfold eraseKeyList
  exact List.mem_filter.mpr ⟨hm, by simpa using hne⟩

theorem sumBy_setNodeList (f : Region → Int) {l : List (Nat × Region)} {n : Nat}
    {r₀ : Region} (hnd : (l.map (·.1)).Nodup) (hm : (n, r₀) ∈ l) (r : Region) :
    sumBy f (setNodeList l n r) = sumBy f l + f r - f r₀ := by
  induction l with
  | nil => cases hm
  | cons p t ih =>
    rw [List.map_cons, List.nodup_cons] at hnd
    unfold setNodeList sumBy at ih ⊢
    rw [List.map_cons, List.map_cons, List.sum_cons, List.map_cons, List.sum_cons]
    rcases List.mem_cons.mp hm with h | h
    · have hp : p = (n, r₀) := h.symm
      have hkeys : ∀ q ∈ t, q.1 ≠ n := by
        intro q hq hqn
        have hmem : q.1 ∈ t.map (·.1) := List.mem_map_of_mem (·.1) hq
        rw [hqn] at hmem
        exact hnd.1 (by rw [hp]; exact hmem)
      have hset := setNodeList_of_not_mem (n := n) (r := r) hkeys
      unfold setNodeList at hset
      rw [hp, if_pos rfl, hset]
      ring
    · by_cases hp : p.1 = n
      · exfalso
        have : n ∈ t.map (·.1) := by
          have := List.mem_map_of_mem (·.1) h
          simpa using this
        exact hnd.1 (hp ▸ this)
      · rw [if_neg hp, ih hnd.2 h]
        ring

theorem sumBy_eraseKeyList (f : Region → Int) {l : List (Nat × Region)} {n : Nat}
    {r₀ : Region} (hnd : (l.map (·.1)).Nodup) (hm : (n, r₀) ∈ l) :
    sumBy f (eraseKeyList l n) = sumBy f l - f r₀ := by
  induction l with
  | nil => cases hm
  | cons p t ih =>
    rw [List.map_cons, List.nodup_cons] at hnd
    unfold eraseKeyList sumBy at ih ⊢
    rw [List.filter_cons, List.map_cons, List.sum_cons]
    rcases List.mem_cons.mp hm with h | h
    · have hp : p = (n, r₀) := h.symm
      have hkeys : ∀ q ∈ t, q.1 ≠ n := by
        intro q hq hqn
        have hmem : q.1 ∈ t.map (·.1) := List.mem_map_of_mem (·.1) hq
        rw [hqn] at hmem
        exact hnd.1 (by rw [hp]; exact hmem)
      have hfil : t.filter (fun p => decide (p.1 ≠ n)) = t :=
        List.filter_eq_self.mpr (fun q hq => by simpa using hkeys q hq)
      rw [if_neg (by simp [hp]), hfil, hp]
      ring
    · by_cases hp : p.1 = n
      · exfalso
        have : n ∈ t.map (·.1) := by
          have := List.mem_map_of_mem (·.1) h
          simpa using this
        exact hnd.1 (hp ▸ this)
      · rw [if_pos (by simpa using hp), List.map_cons, List.sum_cons, ih hnd.2 h]
        ring

theorem length_eraseKeyList {l : List (Nat × Region)} {n : Nat} {r₀ : Region}
    (hnd : (l.map (·.1)).Nodup) (hm : (n, r₀) ∈ l) :
    (eraseKeyList l n).length + 1 = l.length := by
  induction l with
  | nil => cases hm
  | cons p t ih =>
    rw [List.map_cons, List.nodup_cons] at hnd
    unfold eraseKeyList at ih ⊢
    rw [List.filter_cons]
    rcases List.mem_cons.mp hm with h | h
    · have hp : p = (n, r₀) := h.symm
      have hkeys : ∀ q ∈ t, q.1 ≠ n := by
        intro q hq hqn
        have hmem : q.1 ∈ t.map (·.1) := List.mem_map_of_mem (·.1) hq
        rw [hqn] at hmem
        exact hnd.1 (by rw [hp]; exact hmem)
      have hfil : t.filter (fun p => decide (p.1 ≠ n)) = t :=
        List.filter_eq_self.mpr (fun q hq => by simpa using hkeys q hq)
      rw [if_neg (by simp [hp]), hfil, List.length_cons]
    · by_cases hp : p.1 = n
      · exfalso
        have : n ∈ t.map (·.1) := by
          have := List.mem_map_of_mem (·.1) h
          simpa using this
        exact hnd.1 (hp ▸ this)
      · rw [if_pos (by simpa using hp), List.length_cons, List.length_cons,
          ← ih hnd.2 h]

theorem numGeScratch_eq_sumBy (l : List (Nat × Region)) (mmu : Int) :
    numGeScratch l mmu = sumBy (fun r => ind (r.pixelCount ≥ mmu)) l := by
  induction l with
  | nil => rfl
  | cons p t ih =>
    unfold numGeScratch sumBy at ih ⊢
    simp only [ind] at ih
    by_cases h : p.2.pixelCount ≥ mmu <;>
      simp [List.filter_cons, List.map_cons, List.sum_cons, ind, h] <;>
      rw [← ih] <;>
      push_cast <;>
      ring

theorem areaLtScratch_eq_sumBy (l : List (Nat × Region)) (mmu : Int) :
    areaLtScratch l mmu = sumBy (fun r => ind (r.pixelCount < mmu) * r.pixelCount) l := by
  induction l with
  | nil => rfl
  | cons p t ih =>
    unfold areaLtScratch sumBy at ih ⊢
    simp only [ind, ite_mul, one_mul, zero_mul] at ih
    by_cases h : p.2.pixelCount < mmu <;>
      simp [List.filter_cons, List.map_cons, List.sum_cons, ind, h] <;>
      rw [← ih] <;>
      ring

theorem areaSum_eq_sumBy (l : List (Nat × Region)) :
    areaSum l = sumBy (fun r => r.pixelCount) l := rfl

end Scrm

namespace Scrm

/-! ## The discard branch of the loop -/

theorem sizeValid_false_of_both_gt {mas mmu a1 a2 : Int} (st : Bool)
    (h1 : a1 > mas) (h2 : a2 > mas) : sizeValid mas mmu st a1 a2 = false := by
  simp [sizeValid, h1, h2]

theorem latchUpdate_of_true {dms efn : Int} {s : LoopState}
    (h : s.stopLatch = true) : latchUpdate dms efn s = true := by
  unfold latchUpdate
  rw [if_neg]
  · exact h
  · rintro ⟨-, h2⟩
    rw [h] at h2
    cases h2

theorem latchUpdate_cases (dms efn : Int) (s : LoopState) :
    latchUpdate dms efn s = s.stopLatch ∨
      (s.stopLatch = false ∧ latchUpdate dms efn s = true) := by
  unfold latchUpdate
  split
  · next h => exact Or.inr ⟨h.2, rfl⟩
  · exact Or.inl rfl

/-- Any iteration that rejects its popped item — because the validity slot was
already `False` or a size rule fired — only pops the heap and runs the latch
update. -/
theorem step_discard {mergeFn : MergeFn} {wf : WeightFn} {ipm : Bool}
    {mas mmu dms efn : Int} {s : LoopState} {e : Entry} {rest : List Entry}
    (hpop : popMin s.heap = some (e, rest))
    (hv : (if s.valid e.eid then
        sizeValid mas mmu (latchUpdate dms efn s) (nodeArea s.rag e.n1)
          (nodeArea s.rag e.n2)
      else s.valid e.eid) = false) :
    step mergeFn wf ipm mas mmu dms efn s =
      ⟨s.rag, rest, s.valid, s.nextEid, latchUpdate dms efn s⟩ := by
  unfold step
  rw [hpop]
  simp only [hv]
  rfl

/-- C2: an item whose two endpoint regions both currently exceed `mas` is
discarded by its loop iteration without any merge: the graph (nodes, edges and
counters) is untouched, the item is only removed from the heap, and no state
other than the latch changes — whatever the item's weight or position in the
heap and however many iterations have already run. -/
theorem oversized_pair_never_merges (mergeFn : MergeFn) (wf : WeightFn)
    (ipm : Bool) (mas mmu dms efn : Int) (s : LoopState) (e : Entry)
    (rest : List Entry) (hpop : popMin s.heap = some (e, rest))
    (h1 : nodeArea s.rag e.n1 > mas) (h2 : nodeArea s.rag e.n2 > mas) :
    step mergeFn wf ipm mas mmu dms efn s =
      ⟨s.rag, rest, s.valid, s.nextEid, latchUpdate dms efn s⟩ := by
  apply step_discard hpop
  cases hvf : s.valid e.eid
  · simp [hvf]
  · simp [sizeValid_false_of_both_gt _ h1 h2]

/-- C10: a loop iteration whose popped item is stale (validity slot `False`)
or rejected by the size re-check leaves the region store, the adjacency
graph and both aggregate counters unchanged; it only removes the popped item
from the heap and applies the latch update, which either leaves the latch
alone or turns it from `false` to `true`. -/
theorem discard_iteration_frame (mergeFn : MergeFn) (wf : WeightFn)
    (ipm : Bool) (mas mmu dms efn : Int) (s : LoopState) (e : Entry)
    (rest : List Entry) (hpop : popMin s.heap = some (e, rest))
    (hrej : s.valid e.eid = false ∨
      sizeValid mas mmu (latchUpdate dms efn s) (nodeArea s.rag e.n1)
        (nodeArea s.rag e.n2) = false) :
    step mergeFn wf ipm mas mmu dms efn s =
        ⟨s.rag, rest, s.valid, s.nextEid, latchUpdate dms efn s⟩ ∧
      (latchUpdate dms efn s = s.stopLatch ∨
        (s.stopLatch = false ∧ latchUpdate dms efn s = true)) := by
  refine ⟨step_discard hpop ?_, latchUpdate_cases dms efn s⟩
  rcases hrej with h | h
  · simp [h]
  · cases hvf : s.valid e.eid
    · simp [hvf]
    · simp [h]

/-! ## Latch monotonicity -/

theorem step_stopLatch_true {mergeFn : MergeFn} {wf : WeightFn} {ipm : Bool}
    {mas mmu dms efn : Int} {s : LoopState} (h : s.stopLatch = true) :
    (step mergeFn wf ipm mas mmu dms efn s).stopLatch = true := by
  unfold step
  cases hpop : popMin s.heap with
  | none => exact h
  | some pr =>
    obtain ⟨e, rest⟩ := pr
    simp only
    split
    all_goals try split
    all_goals exact latchUpdate_of_true h

theorem loop_stopLatch_true {mergeFn : MergeFn} {wf : WeightFn} {ipm : Bool}
    {mas mmu dms efn : Int} (fuel : Nat) {s : LoopState}
    (h : s.stopLatch = true) :
    (loop mergeFn wf ipm mas mmu dms efn fuel s).stopLatch = true := by
  induction fuel generalizing s with
  | zero => exact h
  | succ k ih =>
    unfold loop
    split
    · exact h
    · exact ih (step_stopLatch_true h)

theorem initHeap_fold_stopLatch (l : List ((Nat × Nat) × EdgeData))
    (s : LoopState) : (l.foldl initHeapStep s).stopLatch = s.stopLatch := by
  induction l generalizing s with
  | nil => rfl
  | cons ed t ih => rw [List.foldl_cons, ih]; rfl

/-- C3: the `partial_stop` latch starts `false` — `merge_size_constrained`
enters its main loop with an unlatched state — and it is monotone: once a
state's latch is `true`, it stays `true` after any further number of loop
iterations, since no branch of the loop body ever writes `false` to it. -/
theorem stop_latch_monotone (mergeFn : MergeFn) (wf : WeightFn) (ipm : Bool)
    (mas mmu dms efn mmu' : Int) (g : RAG) (fuel : Nat) (s : LoopState)
    (h : s.stopLatch = true) :
    (initState mmu' g).stopLatch = false ∧
      (loop mergeFn wf ipm mas mmu dms efn fuel s).stopLatch = true := by
  constructor
  · unfold initState initHeap
    rw [initHeap_fold_stopLatch]
  · exact loop_stopLatch_true fuel h

end Scrm

namespace Scrm

/-! ## Merge attribute arithmetic (merge_scrm) -/

theorem find?_setNodeList (l : List (Nat × Region)) (n : Nat) (r : Region) :
    (setNodeList l n r).find? (fun p => decide (p.1 = n)) =
      (l.find? (fun p => decide (p.1 = n))).map (fun _ => (n, r)) := by
  induction l with
  | nil => rfl
  | cons p t ih =>
    unfold setNodeList at ih ⊢
    by_cases h : p.1 = n
    · rw [List.map_cons, if_pos h, List.find?_cons_of_pos _ (by simp),
        List.find?_cons_of_pos _ (by simp [h])]
      rfl
    · rw [List.map_cons, if_neg h, List.find?_cons_of_neg _ (by simp [h]),
        List.find?_cons_of_neg _ (by simp [h]), ih]

theorem getNode_setNode_self {g : RAG} {n : Nat} {r₀ : Region}
    (h : getNode g n = some r₀) (r : Region) :
    getNode (setNode g n r) n = some r := by
  unfold getNode at h ⊢
  rw [setNode_nodes, find?_setNodeList]
  cases hf : g.nodes.find? (fun p => decide (p.1 = n)) with
  | none => rw [hf] at h; cases h
  | some x => rfl

theorem weighted_mean_pointwise (a b : ℚ) (ha : a ≠ 0) (hb : b ≠ 0)
    (tcd tcs : List ℚ) :
    (List.zipWith (· + ·) tcd tcs).map (fun c => c / (a + b)) =
      List.zipWith (fun cd cs => (a * cd + b * cs) / (a + b))
        (tcd.map (fun c => c / a)) (tcs.map (fun c => c / b)) := by
  induction tcd generalizing tcs with
  | nil => cases tcs <;> rfl
  | cons x txs ih =>
    cases tcs with
    | nil => rfl
    | cons y tys =>
      simp only [List.zipWith_cons_cons, List.map_cons]
      rw [ih]
      congr 1
      have h1 : a * (x / a) = x := by field_simp
      have h2 : b * (y / b) = y := by field_simp
      rw [h1, h2]

/-- C5: after an accepted merge, the surviving region's pixel count is the sum
of the two pre-merge pixel counts, its accumulated color is the channelwise
sum of the two pre-merge accumulated colors, and its mean color is exactly the
combined color sum divided by the combined pixel count — equivalently, when
the two pre-merge mean colors were themselves consistent, the pixel-count
weighted average of the two pre-merge mean colors.  No stale derived value
survives the merge. -/
theorem merge_updates_attributes (g : RAG) (src dst : Nat) (mmu : Int)
    (rs rd : Region)
    (hs : getNode g src = some rs) (hd : getNode g dst = some rd)
    (hps : 0 < rs.pixelCount) (hpd : 0 < rd.pixelCount)
    (hms : rs.meanColor = rs.totalColor.map (fun c => c / (rs.pixelCount : ℚ)))
    (hmd : rd.meanColor = rd.totalColor.map (fun c => c / (rd.pixelCount : ℚ))) :
    ∃ r', getNode (merge_scrm g src dst mmu) dst = some r' ∧
      r'.pixelCount = rd.pixelCount + rs.pixelCount ∧
      r'.totalColor = List.zipWith (· + ·) rd.totalColor rs.totalColor ∧
      r'.meanColor = r'.totalColor.map (fun c => c / (r'.pixelCount : ℚ)) ∧
      r'.meanColor = List.zipWith
        (fun cd cs => ((rd.pixelCount : ℚ) * cd + (rs.pixelCount : ℚ) * cs) /
          ((rd.pixelCount : ℚ) + (rs.pixelCount : ℚ)))
        rd.meanColor rs.meanColor := by
  unfold merge_scrm
  rw [hs, hd]
  simp only
  refine ⟨_, getNode_setNode_self hd _, rfl, rfl, rfl, ?_⟩
  · simp only
    rw [hms, hmd]
    have ha : (rd.pixelCount : ℚ) ≠ 0 := Int.cast_ne_zero.mpr (by omega)
    have hb : (rs.pixelCount : ℚ) ≠ 0 := Int.cast_ne_zero.mpr (by omega)
    have hcast : ((rd.pixelCount + rs.pixelCount : Int) : ℚ) =
        (rd.pixelCount : ℚ) + (rs.pixelCount : ℚ) := by push_cast; ring
    rw [hcast]
    exact weighted_mean_pointwise _ _ ha hb rd.totalColor rs.totalColor

end Scrm

namespace Scrm

/-! ## Concrete fixtures used by witnesses and counterexamples -/

/-- A trivial weight callback (the claims hold for every weight callback). -/
def wfZero : WeightFn := fun _ _ _ _ => 0

def regA : Region := ⟨1, [2], [2], [10]⟩

def regB : Region := ⟨1, [4], [4], [11]⟩

/-- A graph with a single region and no edges. -/
def ragOne : RAG := ⟨[(5, regA)], [], 5, 0, 0⟩

/-- A graph with two adjacent unit-size regions. -/
def ragTwo : RAG := ⟨[(1, regA), (2, regB)], [((1, 2), ⟨1, none⟩)], 2, 0, 0⟩

/-! ## C4: parameter handling -/

/-- C4 counterexample: `mas = 0 < mmu = 5` is one of the parameter
combinations the claim says is detected up front and aborts the run; the code
contains no such validation — the run completes normally and returns a label
array. -/
theorem invalid_params_run_completes :
    merge_size_constrained [10] ragOne 1 0 5 false true merge_scrm wfZero =
      Except.ok [0] := by rfl

/-- C4 amended: `merge_size_constrained` performs no parameter validation.
The only aborting parameter is `dms = 0`, which raises `ZeroDivisionError`
when `expected_final_count = total_area // dms` is computed — after the
aggregate-counter initialization scan has already mutated the graph state, but
before the heap is built and the main loop runs.  Every other parameter
combination (`mmu ≤ 0`, `mas < mmu`, negative `dms`) is not detected: the run
proceeds and returns a result. -/
theorem only_dms_zero_aborts (labels : List Nat) (rag : RAG)
    (dms mas mmu : Int) (rc ipm : Bool) (mergeFn : MergeFn) (wf : WeightFn) :
    (dms = 0 → merge_size_constrained labels rag dms mas mmu rc ipm mergeFn wf =
        Except.error PyError.zeroDivision) ∧
      (dms ≠ 0 → ∃ out,
        merge_size_constrained labels rag dms mas mmu rc ipm mergeFn wf =
          Except.ok out) := by
  constructor
  · intro h
    simp [merge_size_constrained, h]
  · intro h
    simp only [merge_size_constrained, if_neg h]
    exact ⟨_, rfl⟩

theorem only_dms_zero_aborts_witness :
    (merge_size_constrained [10] ragOne 0 10 3 false true merge_scrm wfZero =
        Except.error PyError.zeroDivision) ∧
      ∃ out, merge_size_constrained [10] ragOne 1 10 3 false true merge_scrm
        wfZero = Except.ok out :=
  ⟨(only_dms_zero_aborts [10] ragOne 0 10 3 false true merge_scrm wfZero).1 rfl,
   (only_dms_zero_aborts [10] ragOne 1 10 3 false true merge_scrm wfZero).2
     (by decide)⟩

/-! ## C9: the int16 cast of the output -/

/-- Dense output ids `0 .. k-1` all survive the `np.int16` cast unchanged. -/
def int16Faithful (k : Nat) : Prop := ∀ i : Nat, i < k → toInt16 i = i

/-- C9 counterexample: a final segmentation with 32768 surviving regions has
more regions than the claimed bound of 32767, yet its dense ids `0 .. 32767`
are all still cast faithfully (no id wraps, all stay distinct and
non-negative): the claimed boundary is off by one. -/
theorem int16_faithful_at_32768 : int16Faithful 32768 ∧ 32767 < 32768 := by
  constructor
  · intro i hi
    unfold toInt16
    omega
  · omega

/-- C9 amended: `scrm` casts the final label array to `np.int16`, so the
output is faithful exactly while every dense id fits in 15 bits — that is,
for at most `32768` surviving regions (largest id `32767`); with more
surviving regions the ids from `32768` upward wrap modulo `2 ^ 16` into
negative values (`toInt16 32768 = -32768`), so the output no longer assigns
non-negative ids to all regions. -/
theorem int16_cast_amended (labels : List Nat) (rag : RAG) (wf : WeightFn)
    (dms mas mmu : Int) (out : List Nat)
    (hok : merge_size_constrained labels rag dms mas mmu false true merge_scrm
      wf = Except.ok out)
    (hsmall : ∀ l ∈ out, l ≤ 32767) :
    scrm labels rag wf dms mas mmu =
        Except.ok (out.map (fun l : Nat => (l : Int))) ∧
      toInt16 32768 = -32768 := by
  constructor
  · unfold scrm
    rw [hok]
    simp only [Except.map]
    have hmap : out.map (fun v : Nat => toInt16 (v : Int)) =
        out.map (fun l : Nat => (l : Int)) := by
      refine List.map_congr_left ?_
      intro l hl
      have h2 := hsmall l hl
      unfold toInt16
      omega
    rw [hmap]
  · decide

theorem int16_cast_amended_witness :
    scrm [10, 10] ragOne wfZero 1 10 3 =
        Except.ok (([0, 0] : List Nat).map (fun l : Nat => (l : Int))) ∧
      toInt16 32768 = -32768 :=
  int16_cast_amended [10, 10] ragOne wfZero 1 10 3 [0, 0] (by rfl) (by decide)

/-! ## C8: degenerate single-region input -/

theorem initAgg_fold_preserve (mmu : Int) (l : List (Nat × Region)) (g : RAG) :
    (l.foldl (initAggStep mmu) g).nodes = g.nodes ∧
      (l.foldl (initAggStep mmu) g).edges = g.edges := by
  induction l generalizing g with
  | nil => exact ⟨rfl, rfl⟩
  | cons p t ih =>
    rw [List.foldl_cons]
    obtain ⟨h1, h2⟩ := ih (initAggStep mmu g p)
    constructor
    · rw [h1]; unfold initAggStep; split <;> rfl
    · rw [h2]; unfold initAggStep; split <;> rfl

theorem initAggregates_nodes (mmu : Int) (g : RAG) :
    (initAggregates mmu g).nodes = g.nodes :=
  (initAgg_fold_preserve mmu g.nodes _).1

theorem initAggregates_edges (mmu : Int) (g : RAG) :
    (initAggregates mmu g).edges = g.edges :=
  (initAgg_fold_preserve mmu g.nodes _).2

theorem initState_no_edges (mmu : Int) {g : RAG} (he : g.edges = []) :
    initState mmu g = ⟨initAggregates mmu g, [], fun _ => false, 0, false⟩ := by
  unfold initState initHeap
  rw [initAggregates_edges mmu g, he]
  rfl

theorem loop_empty_heap (mergeFn : MergeFn) (wf : WeightFn) (ipm : Bool)
    (mas mmu dms efn : Int) (fuel : Nat) {s : LoopState} (h : s.heap = []) :
    loop mergeFn wf ipm mas mmu dms efn fuel s = s := by
  cases fuel with
  | zero => rfl
  | succ k => unfold loop; rw [if_pos h]

theorem labelFold_apply (ix : Nat) (labs : List Nat) (f : Nat → Nat) (x : Nat) :
    (labs.foldl (fun h lab => fun y => if y = lab then ix else h y) f) x =
      if x ∈ labs then ix else f x := by
  induction labs generalizing f with
  | nil => simp
  | cons lab t ih =>
    rw [List.foldl_cons, ih]
    by_cases hx : x ∈ t
    · simp [hx]
    · by_cases hxl : x = lab <;> simp [hx, hxl]

theorem labelMapFun_single (n : Nat) (r : Region) (x : Nat) :
    labelMapFun [(n, r)] x = if x ∈ r.labels then 0 else x := by
  unfold labelMapFun
  rw [show ([(n, r)] : List (Nat × Region)).enum = [(0, (n, r))] from rfl,
    List.foldl_cons, List.foldl_nil]
  exact labelFold_apply 0 r.labels id x

/-- C8: on a degenerate input with a single region (hence no edges and an
empty heap) the main loop performs zero merges — the node store after the run
is exactly the input node store — and the output is the input label array
trivially remapped: every pixel is relabelled to the single region's dense
output id `0`. -/
theorem degenerate_single_region (labels : List Nat) (g : RAG) (n : Nat)
    (r : Region) (dms mas mmu : Int) (rc ipm : Bool) (mergeFn : MergeFn)
    (wf : WeightFn) (hn : g.nodes = [(n, r)]) (he : g.edges = [])
    (hl : ∀ l ∈ labels, l ∈ r.labels) (hdms : dms ≠ 0) :
    merge_size_constrained labels g dms mas mmu rc ipm mergeFn wf =
        Except.ok (labels.map (fun _ => 0)) ∧
      (loop mergeFn wf ipm mas mmu dms (Int.fdiv (totalAreaOf g) dms)
        (mscFuel (initState mmu g)) (initState mmu g)).rag.nodes = g.nodes := by
  have hstate := initState_no_edges mmu he
  have hfinal : ∀ fuel, (loop mergeFn wf ipm mas mmu dms
      (Int.fdiv (totalAreaOf g) dms) fuel (initState mmu g)).rag.nodes =
      g.nodes := by
    intro fuel
    rw [hstate, loop_empty_heap _ _ _ _ _ _ _ _ rfl]
    exact initAggregates_nodes mmu g
  constructor
  · simp only [merge_size_constrained, if_neg hdms, ite_self]
    congr 1
    have hmap : ∀ l ∈ labels, labelMapFun (loop mergeFn wf ipm mas mmu dms
        (Int.fdiv (totalAreaOf g) dms) (mscFuel (initHeap (initAggregates mmu g)))
        (initHeap (initAggregates mmu g))).rag.nodes l = 0 := by
      intro l hll
      have hIS : initHeap (initAggregates mmu g) = initState mmu g := rfl
      rw [hIS, hfinal, hn, labelMapFun_single, if_pos (hl l hll)]
    exact List.map_congr_left hmap
  · exact hfinal _

theorem degenerate_single_region_witness :
    merge_size_constrained [10, 10] ragOne 1 10 3 false true merge_scrm wfZero =
        Except.ok ([10, 10].map (fun _ => 0)) ∧
      (loop merge_scrm wfZero true 10 3 1 (Int.fdiv (totalAreaOf ragOne) 1)
        (mscFuel (initState 3 ragOne)) (initState 3 ragOne)).rag.nodes =
        ragOne.nodes :=
  degenerate_single_region [10, 10] ragOne 5 regA 1 10 3 false true merge_scrm
    wfZero rfl rfl (by decide) (by decide)

end Scrm

namespace Scrm

/-! ## Witness fixtures: oversized regions, a stale item, a latched state -/

def regBigA : Region := ⟨20, [2], [2], [10]⟩

def regBigB : Region := ⟨21, [4], [4], [11]⟩

/-- Two adjacent regions whose pixel counts both exceed `mas = 10`. -/
def ragBig : RAG := ⟨[(1, regBigA), (2, regBigB)], [((1, 2), ⟨1, some 0⟩)], 2, 0, 0⟩

def stateBig : LoopState :=
  ⟨ragBig, [⟨1, 1, 2, 0⟩], fun j => j = 0, 1, false⟩

def stateStale : LoopState :=
  ⟨ragTwo, [⟨1, 1, 2, 0⟩], fun _ => false, 1, false⟩

def stateLatched : LoopState := ⟨ragOne, [], fun _ => false, 0, true⟩

theorem oversized_pair_never_merges_witness :
    popMin stateBig.heap = some (⟨1, 1, 2, 0⟩, []) ∧
      nodeArea stateBig.rag 1 > 10 ∧ nodeArea stateBig.rag 2 > 10 ∧
      step merge_scrm wfZero true 10 3 1 2 stateBig =
        ⟨stateBig.rag, [], stateBig.valid, stateBig.nextEid,
          latchUpdate 1 2 stateBig⟩ :=
  ⟨by decide, by decide, by decide,
    oversized_pair_never_merges merge_scrm wfZero true 10 3 1 2 stateBig
      ⟨1, 1, 2, 0⟩ [] (by decide) (by decide) (by decide)⟩

theorem discard_iteration_frame_witness :
    popMin stateStale.heap = some (⟨1, 1, 2, 0⟩, []) ∧
      stateStale.valid 0 = false ∧
      (step merge_scrm wfZero true 10 3 1 2 stateStale =
          ⟨stateStale.rag, [], stateStale.valid, stateStale.nextEid,
            latchUpdate 1 2 stateStale⟩ ∧
        (latchUpdate 1 2 stateStale = stateStale.stopLatch ∨
          (stateStale.stopLatch = false ∧ latchUpdate 1 2 stateStale = true))) :=
  ⟨by decide, by decide,
    discard_iteration_frame merge_scrm wfZero true 10 3 1 2 stateStale
      ⟨1, 1, 2, 0⟩ [] (by decide) (Or.inl (by decide))⟩

theorem stop_latch_monotone_witness :
    stateLatched.stopLatch = true ∧
      ((initState 3 ragOne).stopLatch = false ∧
        (loop merge_scrm wfZero true 10 3 1 2 4 stateLatched).stopLatch = true) :=
  ⟨by decide,
    stop_latch_monotone merge_scrm wfZero true 10 3 1 2 3 ragOne 4 stateLatched
      (by decide)⟩

theorem merge_updates_attributes_witness :
    getNode ragTwo 1 = some regA ∧ getNode ragTwo 2 = some regB ∧
      (∃ r', getNode (merge_scrm ragTwo 1 2 3) 2 = some r' ∧
        r'.pixelCount = regB.pixelCount + regA.pixelCount ∧
        r'.totalColor = List.zipWith (· + ·) regB.totalColor regA.totalColor ∧
        r'.meanColor = r'.totalColor.map (fun c => c / (r'.pixelCount : ℚ)) ∧
        r'.meanColor = List.zipWith
          (fun cd cs => ((regB.pixelCount : ℚ) * cd + (regA.pixelCount : ℚ) * cs) /
            ((regB.pixelCount : ℚ) + (regA.pixelCount : ℚ)))
          regB.meanColor regA.meanColor) :=
  ⟨by decide, by decide,
    merge_updates_attributes ragTwo 1 2 3 regA regB (by decide) (by decide)
      (by decide) (by decide) (by simp [regA]) (by simp [regB])⟩

end Scrm

namespace Scrm

/-! ## Effect lemmas for the graph operations -/

theorem setNode_edges (g : RAG) (n : Nat) (r : Region) :
    (setNode g n r).edges = g.edges := rfl

theorem setNode_counters (g : RAG) (n : Nat) (r : Region) :
    (setNode g n r).numGeMmu = g.numGeMmu ∧
      (setNode g n r).areaLtMmu = g.areaLtMmu := ⟨rfl, rfl⟩

theorem setEdgeData_nodes (g : RAG) (a b : Nat) (d : EdgeData) :
    (setEdgeData g a b d).nodes = g.nodes := rfl

theorem edgeKeys_setEdgeData (g : RAG) (a b : Nat) (d : EdgeData) :
    edgeKeys (setEdgeData g a b d) = edgeKeys g := by
  unfold edgeKeys setEdgeData
  simp only
  induction g.edges with
  | nil => rfl
  | cons e t ih =>
    rw [List.map_cons, List.map_cons, List.map_cons, ih]
    by_cases h : e.1 = ekey a b
    · rw [if_pos h, h]
    · rw [if_neg h]

theorem mem_setEdgeData_elim {g : RAG} {a b : Nat} {d : EdgeData}
    {ed : (Nat × Nat) × EdgeData} (h : ed ∈ (setEdgeData g a b d).edges) :
    ed ∈ g.edges ∨ ed = (ekey a b, d) := by
  unfold setEdgeData at h
  simp only at h
  obtain ⟨e, he, hval⟩ := List.mem_map.mp h
  by_cases hk : e.1 = ekey a b
  · rw [if_pos hk] at hval
    right
    rw [← hval, hk]
  · rw [if_neg hk] at hval
    left
    exact hval ▸ he

theorem find?_setEdgeList (l : List ((Nat × Nat) × EdgeData)) (k : Nat × Nat)
    (d : EdgeData) :
    (l.map (fun e => if e.1 = k then (e.1, d) else e)).find?
        (fun e => decide (e.1 = k)) =
      (l.find? (fun e => decide (e.1 = k))).map (fun e => (e.1, d)) := by
  induction l with
  | nil => rfl
  | cons e t ih =>
    by_cases h : e.1 = k
    · rw [List.map_cons, if_pos h, List.find?_cons_of_pos _ (by simp [h]),
        List.find?_cons_of_pos _ (by simp [h])]
      rfl
    · rw [List.map_cons, if_neg h, List.find?_cons_of_neg _ (by simp [h]),
        List.find?_cons_of_neg _ (by simp [h]), ih]

theorem getEdge_setEdgeData_same {g : RAG} {a b : Nat} {d₀ : EdgeData}
    (h : getEdge g a b = some d₀) (d : EdgeData) :
    getEdge (setEdgeData g a b d) a b = some d := by
  unfold getEdge at h ⊢
  unfold setEdgeData
  simp only
  rw [find?_setEdgeList]
  cases hf : g.edges.find? (fun e => decide (e.1 = ekey a b)) with
  | none => rw [hf] at h; cases h
  | some x => rfl

theorem getEdge_setEdgeData_other {g : RAG} {a b x y : Nat} {d : EdgeData}
    (h : ekey x y ≠ ekey a b) :
    getEdge (setEdgeData g a b d) x y = getEdge g x y := by
  unfold getEdge setEdgeData
  simp only
  congr 1
  induction g.edges with
  | nil => rfl
  | cons e t ih =>
    by_cases hk : e.1 = ekey a b
    · rw [List.map_cons, if_pos hk]
      rw [List.find?_cons_of_neg _ (by
          simp only [decide_eq_true_eq]
          show ¬ e.1 = ekey x y
          rw [hk]; exact fun hc => h hc.symm),
        List.find?_cons_of_neg _ (by
          simp only [decide_eq_true_eq]
          rw [hk]; exact fun hc => h hc.symm), ih]
    · rw [List.map_cons, if_neg hk]
      by_cases hx : e.1 = ekey x y
      · rw [List.find?_cons_of_pos _ (by simp [hx]),
          List.find?_cons_of_pos _ (by simp [hx])]
      · rw [List.find?_cons_of_neg _ (by simp [hx]),
          List.find?_cons_of_neg _ (by simp [hx]), ih]

theorem addEdgeWeight_nodes (g : RAG) (a b : Nat) (w : ℚ) :
    (addEdgeWeight g a b w).nodes = g.nodes := by
  unfold addEdgeWeight
  split <;> rfl

theorem addEdgeWeight_counters (g : RAG) (a b : Nat) (w : ℚ) :
    (addEdgeWeight g a b w).numGeMmu = g.numGeMmu ∧
      (addEdgeWeight g a b w).areaLtMmu = g.areaLtMmu := by
  unfold addEdgeWeight
  constructor <;> (split <;> rfl)

theorem getEdge_none_not_mem_keys {g : RAG} {a b : Nat}
    (h : getEdge g a b = none) : ekey a b ∉ edgeKeys g := by
  intro hmem
  obtain ⟨e, he, hk⟩ := List.mem_map.mp hmem
  unfold getEdge at h
  cases hf : g.edges.find? (fun e => decide (e.1 = ekey a b)) with
  | some x => rw [hf] at h; cases h
  | none =>
    have := List.find?_eq_none.mp hf e he
    simp [hk] at this

theorem mem_addEdgeWeight_elim {g : RAG} {a b : Nat} {w : ℚ}
    {ed : (Nat × Nat) × EdgeData} (h : ed ∈ (addEdgeWeight g a b w).edges) :
    (ed ∈ g.edges) ∨
      (ed.1 = ekey a b ∧ (ed.2.heapItem = none ∨
        ∃ d₀, getEdge g a b = some d₀ ∧ d₀.heapItem = ed.2.heapItem)) := by
  unfold addEdgeWeight at h
  cases hg : getEdge g a b with
  | some d =>
    rw [hg] at h
    simp only at h
    rcases mem_setEdgeData_elim h with h2 | h2
    · exact Or.inl h2
    · refine Or.inr ⟨by rw [h2], Or.inr ⟨d, by simp [hg], by rw [h2]⟩⟩
  | none =>
    rw [hg] at h
    simp only at h
    rcases List.mem_cons.mp h with h2 | h2
    · exact Or.inr ⟨by rw [h2], Or.inl (by rw [h2])⟩
    · exact Or.inl h2

theorem edgeKeys_addEdgeWeight_sub {g : RAG} {a b : Nat} {w : ℚ} {k : Nat × Nat}
    (h : k ∈ edgeKeys (addEdgeWeight g a b w)) :
    k = ekey a b ∨ k ∈ edgeKeys g := by
  obtain ⟨ed, hed, hk⟩ := List.mem_map.mp h
  rcases mem_addEdgeWeight_elim hed with h2 | h2
  · exact Or.inr (hk ▸ List.mem_map_of_mem (·.1) h2)
  · exact Or.inl (hk ▸ h2.1)

theorem edgeKeys_addEdgeWeight_nodup {g : RAG} {a b : Nat} {w : ℚ}
    (hnd : (edgeKeys g).Nodup) :
    (edgeKeys (addEdgeWeight g a b w)).Nodup := by
  unfold addEdgeWeight
  cases hg : getEdge g a b with
  | some d =>
    simp only
    have : edgeKeys { setEdgeData g a b { d with weight := w } with
        maxId := max (max a b) (setEdgeData g a b { d with weight := w }).maxId } =
        edgeKeys (setEdgeData g a b { d with weight := w }) := rfl
    rw [this, edgeKeys_setEdgeData]
    exact hnd
  | none =>
    simp only
    have : edgeKeys { g with
        edges := (ekey a b, (⟨w, none⟩ : EdgeData)) :: g.edges
        maxId := max (max a b) g.maxId } = ekey a b :: edgeKeys g := rfl
    rw [this]
    exact List.nodup_cons.mpr ⟨getEdge_none_not_mem_keys hg, hnd⟩

theorem getEdge_addEdgeWeight_other {g : RAG} {a b x y : Nat} {w : ℚ}
    (h : ekey x y ≠ ekey a b) :
    getEdge (addEdgeWeight g a b w) x y = getEdge g x y := by
  unfold addEdgeWeight
  cases hg : getEdge g a b with
  | some d =>
    simp only
    have : getEdge { setEdgeData g a b { d with weight := w } with
        maxId := max (max a b) (setEdgeData g a b { d with weight := w }).maxId }
        x y = getEdge (setEdgeData g a b { d with weight := w }) x y := rfl
    rw [this]
    exact getEdge_setEdgeData_other h
  | none =>
    simp only
    unfold getEdge
    simp only
    rw [List.find?_cons_of_neg _ (by
      simp only [decide_eq_true_eq]
      exact fun hc => h hc.symm)]

theorem removeNode_edges_mem {g : RAG} {n : Nat} {ed : (Nat × Nat) × EdgeData} :
    ed ∈ (removeNode g n).edges ↔ ed ∈ g.edges ∧ ed.1.1 ≠ n ∧ ed.1.2 ≠ n := by
  unfold removeNode
  simp [List.mem_filter]

theorem find?_filter_of_imp {α : Type} (l : List α) (p q : α → Bool)
    (h : ∀ e, p e = true → q e = true) :
    (l.filter q).find? p = l.find? p := by
  induction l with
  | nil => rfl
  | cons e t ih =>
    rw [List.filter_cons]
    by_cases hq : q e = true
    · rw [if_pos hq]
      by_cases hp : p e = true
      · rw [List.find?_cons_of_pos _ hp, List.find?_cons_of_pos _ hp]
      · rw [List.find?_cons_of_neg _ (by simpa using hp),
          List.find?_cons_of_neg _ (by simpa using hp), ih]
    · rw [if_neg hq]
      have hp : ¬ p e = true := fun hc => hq (h e hc)
      rw [List.find?_cons_of_neg _ (by simpa using hp), ih]

theorem getEdge_removeNode {g : RAG} {n x y : Nat} (hx : x ≠ n) (hy : y ≠ n) :
    getEdge (removeNode g n) x y = getEdge g x y := by
  unfold getEdge removeNode
  simp only
  congr 1
  refine find?_filter_of_imp _ _ _ ?_
  intro e he
  have hk : e.1 = ekey x y := of_decide_eq_true he
  rcases ekey_or x y with h2 | h2
  · rw [h2] at hk
    simp [hk, hx, hy]
  · rw [h2] at hk
    simp [hk, hx, hy]

theorem nodeKeys_removeNode (g : RAG) (n : Nat) :
    nodeKeys (removeNode g n) = (nodeKeys g).filter (fun k => decide (k ≠ n)) := by
  have : (removeNode g n).nodes = eraseKeyList g.nodes n := rfl
  unfold nodeKeys
  rw [this]
  exact keys_eraseKeyList g.nodes n

/-- Well-formedness only depends on the node keys and the edge list keys, so
any graph with the same node keys and the same edge keys inherits it. -/
theorem wfOfKeys {g g' : RAG} (hWF : GraphWF g) (hn : nodeKeys g' = nodeKeys g)
    (he : edgeKeys g' = edgeKeys g) : GraphWF g' := by
  refine ⟨?_, ?_, ?_, ?_, ?_⟩
  · rw [hn]
    exact hWF.nodesNodup
  · intro e hme
    have hkm : e.1 ∈ edgeKeys g := he ▸ List.mem_map_of_mem (·.1) hme
    obtain ⟨e₀, he₀, hk⟩ := List.mem_map.mp hkm
    rw [show e.1 = e₀.1 from hk.symm]
    exact hWF.edgeNorm e₀ he₀
  · intro e hme
    have hkm : e.1 ∈ edgeKeys g := he ▸ List.mem_map_of_mem (·.1) hme
    obtain ⟨e₀, he₀, hk⟩ := List.mem_map.mp hkm
    rw [hn, show e.1 = e₀.1 from hk.symm]
    exact hWF.edgeLiveL e₀ he₀
  · intro e hme
    have hkm : e.1 ∈ edgeKeys g := he ▸ List.mem_map_of_mem (·.1) hme
    obtain ⟨e₀, he₀, hk⟩ := List.mem_map.mp hkm
    rw [hn, show e.1 = e₀.1 from hk.symm]
    exact hWF.edgeLiveR e₀ he₀
  · unfold edgeKeys
    rw [show g'.edges.map (·.1) = edgeKeys g' from rfl, he]
    exact hWF.edgesNodup

end Scrm

namespace Scrm

/-! ## Neighborhood and heap-pop lemmas -/

theorem nbr_some_key {n m : Nat} {e : (Nat × Nat) × EdgeData}
    (hnorm : e.1.1 < e.1.2)
    (h : (if e.1.1 = n then some e.1.2 else
        if e.1.2 = n then some e.1.1 else none) = some m) :
    e.1 = ekey n m ∧ m ≠ n := by
  by_cases h1 : e.1.1 = n
  · rw [if_pos h1] at h
    have hm : e.1.2 = m := by injection h
    have : ekey n m = (n, m) := ekey_of_lt (by omega)
    constructor
    · rw [this, ← h1, ← hm]
    · omega
  · rw [if_neg h1] at h
    by_cases h2 : e.1.2 = n
    · rw [if_pos h2] at h
      have hm : e.1.1 = m := by injection h
      have : ekey n m = (m, n) := ekey_of_gt (by omega)
      constructor
      · rw [this, ← h2, ← hm]
      · omega
    · rw [if_neg h2] at h
      cases h

theorem nbrsList_nodup (n : Nat) (l : List ((Nat × Nat) × EdgeData))
    (hkeys : (l.map (·.1)).Nodup) (hnorm : ∀ e ∈ l, e.1.1 < e.1.2) :
    (l.filterMap (fun e => if e.1.1 = n then some e.1.2 else
      if e.1.2 = n then some e.1.1 else none)).Nodup := by
  induction l with
  | nil => exact List.nodup_nil
  | cons e t ih =>
    rw [List.map_cons, List.nodup_cons] at hkeys
    rw [List.filterMap_cons]
    cases hfe : (if e.1.1 = n then some e.1.2 else
        if e.1.2 = n then some e.1.1 else none) with
    | none => exact ih hkeys.2 (fun e' he' => hnorm e' (List.mem_cons_of_mem e he'))
    | some m =>
      refine List.nodup_cons.mpr ⟨?_, ih hkeys.2
        (fun e' he' => hnorm e' (List.mem_cons_of_mem e he'))⟩
      intro hmem
      obtain ⟨e', he', hfe'⟩ := List.mem_filterMap.mp hmem
      have hk := nbr_some_key (hnorm e (List.mem_cons_self e t)) hfe
      have hk' := nbr_some_key (hnorm e' (List.mem_cons_of_mem e he')) hfe'
      exact hkeys.1 (by
        rw [show e.1 = e'.1 from hk.1.trans hk'.1.symm]
        exact List.mem_map_of_mem (·.1) he')

theorem neighbors_nodup {g : RAG} (hWF : GraphWF g) (n : Nat) :
    (neighbors g n).Nodup :=
  nbrsList_nodup n g.edges hWF.edgesNodup hWF.edgeNorm

theorem popMin_cons_isSome (e : Entry) (es : List Entry) :
    (popMin (e :: es)).isSome := by
  unfold popMin
  split
  · rfl
  · split <;> rfl

theorem popMin_none_eq_nil {l : List Entry} (h : popMin l = none) : l = [] := by
  cases l with
  | nil => rfl
  | cons e es =>
    have := popMin_cons_isSome e es
    rw [h] at this
    cases this

theorem popMin_length {l : List Entry} {e : Entry} {rest : List Entry}
    (h : popMin l = some (e, rest)) : rest.length + 1 = l.length := by
  induction l generalizing e rest with
  | nil => cases h
  | cons x es ih =>
    unfold popMin at h
    split at h
    · next heq =>
      have hes := popMin_none_eq_nil heq
      have h2 := Option.some.inj h
      have h4 : rest = [] := (congrArg Prod.snd h2).symm
      simp [h4, hes]
    · next m r heq =>
      split at h
      · have h2 := Option.some.inj h
        have h4 : rest = es := (congrArg Prod.snd h2).symm
        rw [h4]
        rfl
      · have h2 := Option.some.inj h
        have h4 : rest = x :: r := (congrArg Prod.snd h2).symm
        have h5 := ih heq
        rw [h4, List.length_cons, List.length_cons, ← h5]

theorem popMin_mem {l : List Entry} {e : Entry} {rest : List Entry}
    (h : popMin l = some (e, rest)) : e ∈ l := by
  induction l generalizing e rest with
  | nil => cases h
  | cons x es ih =>
    unfold popMin at h
    split at h
    · next heq =>
      have h2 := Option.some.inj h
      have h3 : e = x := (congrArg Prod.fst h2).symm
      rw [h3]
      exact List.mem_cons_self x es
    · next m r heq =>
      split at h
      · have h2 := Option.some.inj h
        have h3 : e = x := (congrArg Prod.fst h2).symm
        rw [h3]
        exact List.mem_cons_self x es
      · have h2 := Option.some.inj h
        have h3 : e = m := (congrArg Prod.fst h2).symm
        rw [h3]
        exact List.mem_cons_of_mem x (ih heq)

theorem popMin_rest_sub {l : List Entry} {e : Entry} {rest : List Entry}
    (h : popMin l = some (e, rest)) : ∀ x ∈ rest, x ∈ l := by
  induction l generalizing e rest with
  | nil => cases h
  | cons y es ih =>
    unfold popMin at h
    split at h
    · next heq =>
      have h2 := Option.some.inj h
      have h4 : rest = [] := (congrArg Prod.snd h2).symm
      rw [h4]
      intro x hx
      cases hx
    · next m r heq =>
      split at h
      · have h2 := Option.some.inj h
        have h4 : rest = es := (congrArg Prod.snd h2).symm
        rw [h4]
        intro x hx
        exact List.mem_cons_of_mem y hx
      · have h2 := Option.some.inj h
        have h4 : rest = y :: r := (congrArg Prod.snd h2).symm
        rw [h4]
        intro x hx
        rcases List.mem_cons.mp hx with h5 | h5
        · rw [h5]
          exact List.mem_cons_self y es
        · exact List.mem_cons_of_mem y (ih heq x h5)

/-! ## Invalidation lemmas -/

theorem invalidateEdgeSlot_monotone {g : RAG} {v : Nat → Bool} {a b j : Nat}
    (h : invalidateEdgeSlot g v a b j = true) : v j = true := by
  cases hg : getEdge g a b with
  | none =>
    simp only [invalidateEdgeSlot, hg] at h
    exact h
  | some d =>
    cases hh : d.heapItem with
    | none =>
      simp only [invalidateEdgeSlot, hg, hh] at h
      exact h
    | some i =>
      simp only [invalidateEdgeSlot, hg, hh] at h
      by_cases hj : j = i
      · rw [if_pos hj] at h; cases h
      · rw [if_neg hj] at h; exact h

theorem invalidateEdgeSlot_false {g : RAG} {v : Nat → Bool} {a b j : Nat}
    (h : v j = false) : invalidateEdgeSlot g v a b j = false := by
  cases hr : invalidateEdgeSlot g v a b j with
  | false => rfl
  | true => rw [invalidateEdgeSlot_monotone hr] at h; cases h

theorem foldl_invalidate_monotone (g : RAG) (n : Nat) (l : List Nat) :
    ∀ (v : Nat → Bool) (j : Nat),
      (l.foldl (fun v nbr => invalidateEdgeSlot g v n nbr) v) j = true →
        v j = true := by
  induction l with
  | nil => intro v j h; exact h
  | cons m t ih =>
    intro v j h
    rw [List.foldl_cons] at h
    exact invalidateEdgeSlot_monotone (ih _ j h)

theorem invalidateNeighbors_monotone {g : RAG} {v : Nat → Bool} {n j : Nat}
    (h : invalidateNeighbors g v n j = true) : v j = true :=
  foldl_invalidate_monotone g n (neighbors g n) v j h

theorem foldl_invalidate_false (g : RAG) (n : Nat) (l : List Nat) :
    ∀ (v : Nat → Bool) (j : Nat), v j = false →
      (l.foldl (fun v nbr => invalidateEdgeSlot g v n nbr) v) j = false := by
  induction l with
  | nil => intro v j h; exact h
  | cons m t ih =>
    intro v j h
    rw [List.foldl_cons]
    exact ih _ j (invalidateEdgeSlot_false h)

theorem foldl_invalidate_kills (g : RAG) (n : Nat) {m i : Nat}
    (hset : ∀ v : Nat → Bool, invalidateEdgeSlot g v n m i = false)
    (l : List Nat) (hm : m ∈ l) :
    ∀ v, (l.foldl (fun v nbr => invalidateEdgeSlot g v n nbr) v) i = false := by
  induction l with
  | nil => cases hm
  | cons x t ih =>
    intro v
    rw [List.foldl_cons]
    by_cases hx : x = m
    · subst hx
      exact foldl_invalidate_false g n t _ i (hset v)
    · have hm' : m ∈ t := by
        rcases List.mem_cons.mp hm with h5 | h5
        · exact absurd h5.symm hx
        · exact h5
      exact ih hm' _

/-- Invalidating the whole neighborhood of `n` turns off the slot of every
heap item referenced by an edge incident to `n`. -/
theorem invalidateNeighbors_kills {g : RAG} (hWF : GraphWF g) {n i : Nat}
    {ed : (Nat × Nat) × EdgeData} (hm : ed ∈ g.edges)
    (hinc : ed.1.1 = n ∨ ed.1.2 = n) (hh : ed.2.heapItem = some i)
    (v : Nat → Bool) : invalidateNeighbors g v n i = false := by
  have hnorm := hWF.edgeNorm ed hm
  by_cases h1 : ed.1.1 = n
  · have hmem : ed.1.2 ∈ neighbors g n := mem_neighbors_intro_l hm h1
    have hkey : ekey n ed.1.2 = ed.1 := by
      rw [ekey_of_lt (by omega)]
      rw [← h1]
    have hset : ∀ v : Nat → Bool, invalidateEdgeSlot g v n ed.1.2 i = false := by
      intro v'
      have hge : getEdge g n ed.1.2 = some ed.2 :=
        getEdge_eq_of_mem hWF.edgesNodup (by rw [hkey]; exact hm)
      simp only [invalidateEdgeSlot, hge, hh]
      simp
    exact foldl_invalidate_kills g n hset (neighbors g n) hmem v
  · have h2 : ed.1.2 = n := by
      rcases hinc with h | h
      · exact absurd h h1
      · exact h
    have hmem : ed.1.1 ∈ neighbors g n := mem_neighbors_intro_r hm h2 h1
    have hkey : ekey n ed.1.1 = ed.1 := by
      rw [ekey_of_gt (by omega)]
      rw [← h2]
    have hset : ∀ v : Nat → Bool, invalidateEdgeSlot g v n ed.1.1 i = false := by
      intro v'
      have hge : getEdge g n ed.1.1 = some ed.2 :=
        getEdge_eq_of_mem hWF.edgesNodup (by rw [hkey]; exact hm)
      simp only [invalidateEdgeSlot, hge, hh]
      simp
    exact foldl_invalidate_kills g n hset (neighbors g n) hmem v

end Scrm

namespace Scrm

/-! ## The add phase of merge_nodes -/

theorem getNode_congr_nodes {g g' : RAG} (h : g.nodes = g'.nodes) (n : Nat) :
    getNode g n = getNode g' n := by
  unfold getNode
  rw [h]

theorem nodeKeys_setNode (g : RAG) (n : Nat) (r : Region) :
    nodeKeys (setNode g n r) = nodeKeys g := by
  unfold nodeKeys
  rw [setNode_nodes]
  exact keys_setNodeList g.nodes n r

theorem wf_setNode {g : RAG} (hWF : GraphWF g) (n : Nat) (r : Region) :
    GraphWF (setNode g n r) :=
  wfOfKeys hWF (nodeKeys_setNode g n r) rfl

theorem edgeKeys_removeNode (g : RAG) (n : Nat) :
    edgeKeys (removeNode g n) =
      (edgeKeys g).filter (fun k => decide (k.1 ≠ n ∧ k.2 ≠ n)) := by
  unfold edgeKeys removeNode
  simp only
  rw [List.filter_map]
  rfl

theorem wf_removeNode {g : RAG} (hWF : GraphWF g) (n : Nat) :
    GraphWF (removeNode g n) := by
  refine ⟨?_, ?_, ?_, ?_, ?_⟩
  · rw [nodeKeys_removeNode]
    exact hWF.nodesNodup.filter _
  · intro e hme
    exact hWF.edgeNorm e (removeNode_edges_mem.mp hme).1
  · intro e hme
    obtain ⟨hmem, h1, h2⟩ := removeNode_edges_mem.mp hme
    rw [nodeKeys_removeNode]
    exact List.mem_filter.mpr ⟨hWF.edgeLiveL e hmem, by simpa using h1⟩
  · intro e hme
    obtain ⟨hmem, h1, h2⟩ := removeNode_edges_mem.mp hme
    rw [nodeKeys_removeNode]
    exact List.mem_filter.mpr ⟨hWF.edgeLiveR e hmem, by simpa using h2⟩
  · rw [edgeKeys_removeNode]
    exact hWF.edgesNodup.filter _

/-- Relation between the graph at the start of the `merge_nodes` add phase and
the evolving graph: only edges incident to the surviving node `new` are
touched, the node store and the counters are untouched, the graph stays well
formed and every heap-item reference present came from the original graph. -/
structure AddRel (new : Nat) (g1 h : RAG) : Prop where
  nodesEq : h.nodes = g1.nodes
  wf : GraphWF h
  numEq : h.numGeMmu = g1.numGeMmu
  areaEq : h.areaLtMmu = g1.areaLtMmu
  awayEq : ∀ x y : Nat, x ≠ new → y ≠ new → getEdge h x y = getEdge g1 x y
  itemProv : ∀ ed ∈ h.edges, ∀ i : Nat, ed.2.heapItem = some i →
    ∃ ed₀ ∈ g1.edges, ed₀.2.heapItem = some i

theorem addRel_refl {g1 : RAG} (hWF : GraphWF g1) (new : Nat) :
    AddRel new g1 g1 :=
  ⟨rfl, hWF, rfl, rfl, fun _ _ _ _ => rfl, fun ed hm i hi => ⟨ed, hm, hi⟩⟩

theorem ekey_ne_of_avoid {x y a new : Nat} (hx : x ≠ new) (hy : y ≠ new) :
    ekey x y ≠ ekey a new := by
  intro hc
  rcases ekey_eq_elim hc with ⟨h1, h2⟩ | ⟨h1, h2⟩ <;> omega

theorem addRel_step {new : Nat} {g1 h : RAG} (hR : AddRel new g1 h) {nbr : Nat}
    (hnbr : nbr ∈ nodeKeys g1) (hne : nbr ≠ new) (hnew : new ∈ nodeKeys g1)
    (w : ℚ) : AddRel new g1 (addEdgeWeight h nbr new w) := by
  have hkeys : nodeKeys (addEdgeWeight h nbr new w) = nodeKeys g1 := by
    unfold nodeKeys
    rw [addEdgeWeight_nodes, hR.nodesEq]
  refine ⟨?_, ?_, ?_, ?_, ?_, ?_⟩
  · rw [addEdgeWeight_nodes, hR.nodesEq]
  · refine ⟨?_, ?_, ?_, ?_, ?_⟩
    · rw [hkeys]
      have h1 : nodeKeys h = nodeKeys g1 := by unfold nodeKeys; rw [hR.nodesEq]
      rw [← h1]
      exact hR.wf.nodesNodup
    · intro e hme
      rcases mem_addEdgeWeight_elim hme with h2 | h2
      · exact hR.wf.edgeNorm e h2
      · rw [h2.1]
        exact ekey_lt hne
    · intro e hme
      rw [hkeys]
      rcases mem_addEdgeWeight_elim hme with h2 | h2
      · have := hR.wf.edgeLiveL e h2
        unfold nodeKeys at this ⊢
        rw [hR.nodesEq] at this
        exact this
      · rw [h2.1]
        rcases ekey_or nbr new with h3 | h3 <;> rw [h3]
        · exact hnbr
        · exact hnew
    · intro e hme
      rw [hkeys]
      rcases mem_addEdgeWeight_elim hme with h2 | h2
      · have := hR.wf.edgeLiveR e h2
        unfold nodeKeys at this ⊢
        rw [hR.nodesEq] at this
        exact this
      · rw [h2.1]
        rcases ekey_or nbr new with h3 | h3 <;> rw [h3]
        · exact hnew
        · exact hnbr
    · exact edgeKeys_addEdgeWeight_nodup hR.wf.edgesNodup
  · rw [show (addEdgeWeight h nbr new w).numGeMmu = h.numGeMmu from
      (addEdgeWeight_counters h nbr new w).1]
    exact hR.numEq
  · rw [show (addEdgeWeight h nbr new w).areaLtMmu = h.areaLtMmu from
      (addEdgeWeight_counters h nbr new w).2]
    exact hR.areaEq
  · intro x y hx hy
    rw [getEdge_addEdgeWeight_other (ekey_ne_of_avoid hx hy)]
    exact hR.awayEq x y hx hy
  · intro ed hme i hi
    rcases mem_addEdgeWeight_elim hme with h2 | h2
    · exact hR.itemProv ed h2 i hi
    · rcases h2.2 with h3 | ⟨d₀, hd₀, h3⟩
      · rw [h3] at hi; cases hi
      · rw [hi] at h3
        exact hR.itemProv (ekey nbr new, d₀) (mem_of_getEdge hd₀) i h3

theorem addRel_fold (src new : Nat) (wf : WeightFn) {g1 : RAG}
    (l : List Nat) (hl : ∀ x ∈ l, x ∈ nodeKeys g1 ∧ x ≠ new)
    (hnew : new ∈ nodeKeys g1) {h : RAG} (hR : AddRel new g1 h) :
    AddRel new g1 (l.foldl (mergeAddStep src new wf) h) := by
  induction l generalizing h with
  | nil => exact hR
  | cons x t ih =>
    rw [List.foldl_cons]
    have hx := hl x (List.mem_cons_self x t)
    exact ih (fun y hy => hl y (List.mem_cons_of_mem x hy))
      (addRel_step hR hx.1 hx.2 hnew _)

end Scrm

namespace Scrm

theorem getEdge_setNode (g : RAG) (n : Nat) (r : Region) (a b : Nat) :
    getEdge (setNode g n r) a b = getEdge g a b := rfl

theorem mem_nodeKeys_of_getNode {g : RAG} {n : Nat} {r : Region}
    (h : getNode g n = some r) : n ∈ nodeKeys g :=
  List.mem_map_of_mem (·.1) (mem_of_getNode h)

/-- Decomposition of the in-place `merge_nodes` call: the survivor is `dst`,
the node store is the input store with `dst`'s labels extended and `src`
erased, the graph stays well formed, edges away from both merged nodes are
untouched, heap-item references all come from the input graph, the counters
are untouched, and the node count drops by exactly one. -/
theorem merge_nodes_spec {g1 : RAG} (hWF : GraphWF g1) {src dst : Nat}
    {rs1 rd1 : Region} (hs : getNode g1 src = some rs1)
    (hd : getNode g1 dst = some rd1) (hne : src ≠ dst) (wf : WeightFn) :
    (merge_nodes g1 src dst wf true).2 = dst ∧
    (merge_nodes g1 src dst wf true).1.nodes = eraseKeyList
      (setNodeList g1.nodes dst
        { rd1 with labels := rs1.labels ++ rd1.labels }) src ∧
    GraphWF (merge_nodes g1 src dst wf true).1 ∧
    (∀ x y : Nat, x ≠ dst → y ≠ dst → x ≠ src → y ≠ src →
      getEdge (merge_nodes g1 src dst wf true).1 x y = getEdge g1 x y) ∧
    (∀ ed ∈ (merge_nodes g1 src dst wf true).1.edges, ∀ i : Nat,
      ed.2.heapItem = some i → ∃ ed₀ ∈ g1.edges, ed₀.2.heapItem = some i) ∧
    (merge_nodes g1 src dst wf true).1.numGeMmu = g1.numGeMmu ∧
    (merge_nodes g1 src dst wf true).1.areaLtMmu = g1.areaLtMmu ∧
    (merge_nodes g1 src dst wf true).1.nodes.length + 1 = g1.nodes.length ∧
    dst ∈ nodeKeys (merge_nodes g1 src dst wf true).1 := by
  have hl : ∀ x ∈ (neighbors g1 src ++ neighbors g1 dst).dedup.filter
      (fun x => decide (x ≠ src ∧ x ≠ dst)), x ∈ nodeKeys g1 ∧ x ≠ dst := by
    intro x hx
    obtain ⟨hx1, hx2⟩ := List.mem_filter.mp hx
    have hx3 : x ≠ src ∧ x ≠ dst := of_decide_eq_true hx2
    have hx4 := List.mem_dedup.mp hx1
    rcases List.mem_append.mp hx4 with h5 | h5
    · exact ⟨neighbors_live hWF h5, hx3.2⟩
    · exact ⟨neighbors_live hWF h5, hx3.2⟩
  have hRel : AddRel dst g1 (((neighbors g1 src ++ neighbors g1 dst).dedup.filter
      (fun x => decide (x ≠ src ∧ x ≠ dst))).foldl (mergeAddStep src dst wf) g1) :=
    addRel_fold src dst wf _ hl (mem_nodeKeys_of_getNode hd) (addRel_refl hWF dst)
  set g2 := ((neighbors g1 src ++ neighbors g1 dst).dedup.filter
      (fun x => decide (x ≠ src ∧ x ≠ dst))).foldl (mergeAddStep src dst wf) g1
    with hg2def
  have hs2 : getNode g2 src = some rs1 := by
    rw [getNode_congr_nodes hRel.nodesEq]
    exact hs
  have hd2 : getNode g2 dst = some rd1 := by
    rw [getNode_congr_nodes hRel.nodesEq]
    exact hd
  have hEq : merge_nodes g1 src dst wf true =
      (removeNode (setNode g2 dst
        { rd1 with labels := rs1.labels ++ rd1.labels }) src, dst) := by
    unfold merge_nodes
    simp only [if_pos, ← hg2def, hs2, hd2]
  rw [hEq]
  have hcomb : (setNode g2 dst
      { rd1 with labels := rs1.labels ++ rd1.labels }).nodes =
      setNodeList g1.nodes dst { rd1 with labels := rs1.labels ++ rd1.labels } := by
    rw [setNode_nodes, hRel.nodesEq]
  refine ⟨rfl, ?_, ?_, ?_, ?_, ?_, ?_, ?_, ?_⟩
  · rw [removeNode_nodes, hcomb]
  · exact wf_removeNode (wf_setNode hRel.wf dst _) src
  · intro x y hxd hyd hxs hys
    rw [getEdge_removeNode hxs hys, getEdge_setNode]
    exact hRel.awayEq x y hxd hyd
  · intro ed hme i hi
    have h2 : ed ∈ (setNode g2 dst
        { rd1 with labels := rs1.labels ++ rd1.labels }).edges :=
      (removeNode_edges_mem.mp hme).1
    rw [setNode_edges] at h2
    exact hRel.itemProv ed h2 i hi
  · exact hRel.numEq
  · exact hRel.areaEq
  · show (removeNode (setNode g2 dst
        { rd1 with labels := rs1.labels ++ rd1.labels }) src).nodes.length + 1 =
      g1.nodes.length
    rw [removeNode_nodes, hcomb]
    have hnd : ((setNodeList g1.nodes dst
        { rd1 with labels := rs1.labels ++ rd1.labels }).map (·.1)).Nodup := by
      rw [keys_setNodeList]
      exact hWF.nodesNodup
    have hmm : (src, rs1) ∈ setNodeList g1.nodes dst
        { rd1 with labels := rs1.labels ++ rd1.labels } :=
      mem_setNodeList_other (mem_of_getNode hs) hne _
    rw [length_eraseKeyList hnd hmm]
    unfold setNodeList
    rw [List.length_map]
  · show dst ∈ nodeKeys (removeNode (setNode g2 dst
        { rd1 with labels := rs1.labels ++ rd1.labels }) src)
    unfold nodeKeys
    rw [removeNode_nodes, hcomb]
    have hmm : (dst, ({ rd1 with labels := rs1.labels ++ rd1.labels } : Region)) ∈
        setNodeList g1.nodes dst { rd1 with labels := rs1.labels ++ rd1.labels } :=
      mem_setNodeList_self (mem_of_getNode hd) _
    exact List.mem_map_of_mem (·.1)
      (mem_eraseKeyList_other hmm (Ne.symm hne))

end Scrm

namespace Scrm

/-! ## The revalidation phase -/

theorem ekey_ne_of_avoid_left {x y n a : Nat} (hx : x ≠ n) (hy : y ≠ n) :
    ekey x y ≠ ekey n a := by
  intro hc
  rcases ekey_eq_elim hc with ⟨h1, h2⟩ | ⟨h1, h2⟩ <;> omega

/-- Invariant carried through the `_revalidate_node_edges` fold: `g4` is the
graph right after `merge_nodes`, `newId` the surviving node, `rest₀` the heap
after the pop, `vm2₀` the validity slots after both invalidation sweeps, `e0`
the next fresh item id, and `l` the suffix of neighbors still to process. -/
structure RevalInv (g4 : RAG) (newId : Nat) (rest₀ : List Entry)
    (vm2₀ : Nat → Bool) (e0 : Nat) (l : List Nat)
    (acc : RAG × List Entry × (Nat → Bool) × Nat) : Prop where
  nodesEq : acc.1.nodes = g4.nodes
  keysEq : edgeKeys acc.1 = edgeKeys g4
  numEq : acc.1.numGeMmu = g4.numGeMmu
  areaEq : acc.1.areaLtMmu = g4.areaLtMmu
  eidLe : e0 ≤ acc.2.2.2
  itemLt : ∀ ed ∈ acc.1.edges, ∀ i : Nat, ed.2.heapItem = some i → i < acc.2.2.2
  freshTrue : ∀ j : Nat, e0 ≤ j → j < acc.2.2.2 → acc.2.2.1 j = true
  heapShape : ∀ e ∈ acc.2.1, e ∈ rest₀ ∨
    (e.n1 = newId ∧ e.n2 ∉ l ∧ e.n2 ≠ newId ∧ e0 ≤ e.eid ∧ e.eid < acc.2.2.2 ∧
      ∃ d, getEdge acc.1 e.n1 e.n2 = some d ∧ d.heapItem = some e.eid)
  pendEq : ∀ x ∈ l, getEdge acc.1 newId x = getEdge g4 newId x
  awayEq : ∀ x y : Nat, x ≠ newId → y ≠ newId → getEdge acc.1 x y = getEdge g4 x y
  oldProv : ∀ j : Nat, acc.2.2.1 j = true → j < e0 → vm2₀ j = true

theorem revalInv_step {g4 : RAG} {newId : Nat} {rest₀ : List Entry}
    {vm2₀ : Nat → Bool} {e0 : Nat} {x : Nat} {t : List Nat}
    {acc : RAG × List Entry × (Nat → Bool) × Nat}
    (hfresh4 : ∀ ed ∈ g4.edges, ∀ i : Nat, ed.2.heapItem = some i → i < e0)
    (hx : (∃ d, getEdge g4 newId x = some d) ∧ x ≠ newId) (hxt : x ∉ t)
    (hQ : RevalInv g4 newId rest₀ vm2₀ e0 (x :: t) acc) :
    RevalInv g4 newId rest₀ vm2₀ e0 t (revalStep newId acc x) := by
  obtain ⟨⟨d, hd⟩, hxn⟩ := hx
  have hget : getEdge acc.1 newId x = some d := by
    rw [hQ.pendEq x (List.mem_cons_self x t)]
    exact hd
  have hdlt : ∀ i : Nat, d.heapItem = some i → i < e0 := by
    intro i hi
    exact hfresh4 (ekey newId x, d) (mem_of_getEdge hd) i hi
  have hstep : revalStep newId acc x =
      ⟨setEdgeData acc.1 newId x { d with heapItem := some acc.2.2.2 },
       ⟨d.weight, newId, x, acc.2.2.2⟩ :: acc.2.1,
       (fun j => if j = acc.2.2.2 then true else
          (match d.heapItem with
           | some i => fun j => if j = i then false else acc.2.2.1 j
           | none => acc.2.2.1) j),
       acc.2.2.2 + 1⟩ := by
    unfold revalStep
    rw [hget]
  rw [hstep]
  set eid := acc.2.2.2 with heid
  have hvm1 : ∀ j : Nat, e0 ≤ j →
      ((match d.heapItem with
        | some i => fun j => if j = i then false else acc.2.2.1 j
        | none => acc.2.2.1) j) = acc.2.2.1 j := by
    intro j hj
    cases hh : d.heapItem with
    | none => rfl
    | some i =>
      have := hdlt i hh
      simp only
      rw [if_neg (by omega)]
  have hvm1' : ∀ j : Nat,
      ((match d.heapItem with
        | some i => fun j => if j = i then false else acc.2.2.1 j
        | none => acc.2.2.1) j) = true → acc.2.2.1 j = true := by
    intro j hj
    cases hh : d.heapItem with
    | none => rw [hh] at hj; exact hj
    | some i =>
      rw [hh] at hj
      simp only at hj
      by_cases hji : j = i
      · rw [if_pos hji] at hj; cases hj
      · rw [if_neg hji] at hj; exact hj
  refine ⟨?_, ?_, ?_, ?_, ?_, ?_, ?_, ?_, ?_, ?_, ?_⟩
  · rw [setEdgeData_nodes]
    exact hQ.nodesEq
  · rw [edgeKeys_setEdgeData]
    exact hQ.keysEq
  · exact hQ.numEq
  · exact hQ.areaEq
  · have := hQ.eidLe
    simp only
    omega
  · intro ed hme i hi
    simp only
    rcases mem_setEdgeData_elim hme with h2 | h2
    · have := hQ.itemLt ed h2 i hi
      omega
    · rw [h2] at hi
      simp only at hi
      injection hi with hi2
      omega
  · intro j hj1 hj2
    simp only at hj2 ⊢
    by_cases hje : j = eid
    · rw [if_pos hje]
    · rw [if_neg hje]
      rw [hvm1 j hj1]
      exact hQ.freshTrue j hj1 (by omega)
  · intro e hme
    rcases List.mem_cons.mp hme with h2 | h2
    · right
      rw [h2]
      refine ⟨rfl, hxt, hxn, hQ.eidLe, by simp only; omega, ?_⟩
      refine ⟨{ d with heapItem := some eid }, ?_, rfl⟩
      exact getEdge_setEdgeData_same hget _
    · rcases hQ.heapShape e h2 with h3 | ⟨h3, h4, h5, h6, h7, d', hd', hh'⟩
      · exact Or.inl h3
      · right
        have hne2 : e.n2 ≠ x := fun hc => h4 (hc ▸ List.mem_cons_self x t)
        refine ⟨h3, fun hc => h4 (List.mem_cons_of_mem x hc), h5, h6,
          by simp only; omega, ?_⟩
        refine ⟨d', ?_, hh'⟩
        rw [← hd']
        rw [h3]
        refine getEdge_setEdgeData_other ?_
        intro hc
        exact hne2 (ekey_left_eq hc)
  · intro y hy
    have hyx : y ≠ x := fun hc => hxt (hc ▸ hy)
    rw [getEdge_setEdgeData_other (fun hc => hyx (ekey_left_eq hc))]
    exact hQ.pendEq y (List.mem_cons_of_mem x hy)
  · intro a b ha hb
    rw [getEdge_setEdgeData_other (ekey_ne_of_avoid_left ha hb)]
    exact hQ.awayEq a b ha hb
  · intro j hj hlt
    simp only at hj
    have hje : j ≠ eid := by
      have := hQ.eidLe
      omega
    rw [if_neg hje] at hj
    exact hQ.oldProv j (hvm1' j hj) hlt

theorem revalInv_fold {g4 : RAG} {newId : Nat} {rest₀ : List Entry}
    {vm2₀ : Nat → Bool} {e0 : Nat}
    (hfresh4 : ∀ ed ∈ g4.edges, ∀ i : Nat, ed.2.heapItem = some i → i < e0)
    (l : List Nat) (hl : ∀ x ∈ l, (∃ d, getEdge g4 newId x = some d) ∧ x ≠ newId)
    (hlnd : l.Nodup) {acc : RAG × List Entry × (Nat → Bool) × Nat}
    (hQ : RevalInv g4 newId rest₀ vm2₀ e0 l acc) :
    RevalInv g4 newId rest₀ vm2₀ e0 [] (l.foldl (revalStep newId) acc) := by
  induction l generalizing acc with
  | nil => exact hQ
  | cons x t ih =>
    rw [List.foldl_cons]
    rw [List.nodup_cons] at hlnd
    have hQ' := revalInv_step hfresh4 (hl x (List.mem_cons_self x t)) hlnd.1 hQ
    exact ih (fun y hy => hl y (List.mem_cons_of_mem x hy)) hlnd.2
      (by
        refine ⟨hQ'.nodesEq, hQ'.keysEq, hQ'.numEq, hQ'.areaEq, hQ'.eidLe,
          hQ'.itemLt, hQ'.freshTrue, ?_, hQ'.pendEq, hQ'.awayEq, hQ'.oldProv⟩
        intro e hme
        rcases hQ'.heapShape e hme with h2 | ⟨h3, h4, h5, h6, h7, hd⟩
        · exact Or.inl h2
        · exact Or.inr ⟨h3, h4, h5, h6, h7, hd⟩)

theorem revalStep_heap_len (node : Nat)
    (acc : RAG × List Entry × (Nat → Bool) × Nat) (x : Nat) :
    (revalStep node acc x).2.1.length ≤ acc.2.1.length + 1 := by
  cases hg : getEdge acc.1 node x with
  | none =>
    simp only [revalStep, hg]
    omega
  | some d =>
    simp only [revalStep, hg]
    simp

theorem reval_fold_len (node : Nat) (l : List Nat) :
    ∀ acc : RAG × List Entry × (Nat → Bool) × Nat,
      ((l.foldl (revalStep node) acc)).2.1.length ≤ acc.2.1.length + l.length := by
  induction l with
  | nil => intro acc; simp
  | cons x t ih =>
    intro acc
    rw [List.foldl_cons]
    have h1 := ih (revalStep node acc x)
    have h2 := revalStep_heap_len node acc x
    rw [List.length_cons]
    omega

end Scrm

namespace Scrm

/-! ## The heap initialization scan -/

theorem mem_setEdgeData_elim_strong {g : RAG} {a b : Nat} {d : EdgeData}
    {ed : (Nat × Nat) × EdgeData} (h : ed ∈ (setEdgeData g a b d).edges) :
    (ed ∈ g.edges ∧ ed.1 ≠ ekey a b) ∨ ed = (ekey a b, d) := by
  unfold setEdgeData at h
  simp only at h
  obtain ⟨e, he, hval⟩ := List.mem_map.mp h
  by_cases hk : e.1 = ekey a b
  · rw [if_pos hk] at hval
    right
    rw [← hval, hk]
  · rw [if_neg hk] at hval
    left
    exact ⟨hval ▸ he, hval ▸ hk⟩

theorem getEdge_isSome_of_mem_keys {g : RAG} {a b : Nat}
    (h : ekey a b ∈ edgeKeys g) : ∃ d, getEdge g a b = some d := by
  obtain ⟨e, he, hk⟩ := List.mem_map.mp h
  unfold getEdge
  cases hf : g.edges.find? (fun e => decide (e.1 = ekey a b)) with
  | none =>
    have := List.find?_eq_none.mp hf e he
    simp [hk] at this
  | some x => exact ⟨x.2, rfl⟩

/-- Invariant of the lines 101-108 scan: `g0` is the graph entering the scan,
`l` the suffix of its edge list still to process. -/
structure InitInv (g0 : RAG) (l : List ((Nat × Nat) × EdgeData))
    (s : LoopState) : Prop where
  nodesEq : s.rag.nodes = g0.nodes
  keysEq : edgeKeys s.rag = edgeKeys g0
  numEq : s.rag.numGeMmu = g0.numGeMmu
  areaEq : s.rag.areaLtMmu = g0.areaLtMmu
  heapGood : ∀ e ∈ s.heap, e.n1 < e.n2 ∧ ekey e.n1 e.n2 ∉ l.map (·.1) ∧
    e.eid < s.nextEid ∧
    ∃ d, getEdge s.rag e.n1 e.n2 = some d ∧ d.heapItem = some e.eid
  itemGood : ∀ ed ∈ s.rag.edges, (ed.1 ∈ l.map (·.1)) ∨
    (∀ i : Nat, ed.2.heapItem = some i → i < s.nextEid)
  latch : s.stopLatch = false

theorem initInv_step {g0 : RAG} {ed : (Nat × Nat) × EdgeData}
    {t : List ((Nat × Nat) × EdgeData)} {s : LoopState}
    (hed : ed.1 ∈ edgeKeys g0 ∧ ed.1.1 < ed.1.2)
    (hednd : ed.1 ∉ t.map (·.1))
    (hQ : InitInv g0 (ed :: t) s) : InitInv g0 t (initHeapStep s ed) := by
  have hkey : ekey ed.1.1 ed.1.2 = ed.1 := by
    rw [ekey_of_lt hed.2]
  have hexist : ∃ d₀, getEdge s.rag ed.1.1 ed.1.2 = some d₀ := by
    apply getEdge_isSome_of_mem_keys
    rw [hQ.keysEq, hkey]
    exact hed.1
  obtain ⟨d₀, hd₀⟩ := hexist
  unfold initHeapStep
  refine ⟨?_, ?_, ?_, ?_, ?_, ?_, ?_⟩
  · rw [setEdgeData_nodes]
    exact hQ.nodesEq
  · rw [edgeKeys_setEdgeData]
    exact hQ.keysEq
  · exact hQ.numEq
  · exact hQ.areaEq
  · intro e hme
    rcases List.mem_cons.mp hme with h2 | h2
    · rw [h2]
      refine ⟨hed.2, by rw [hkey]; exact hednd, by simp, ?_⟩
      exact ⟨_, getEdge_setEdgeData_same hd₀ _, rfl⟩
    · obtain ⟨hn, hkmem, heid, d', hd', hh'⟩ := hQ.heapGood e h2
      have hkne : ekey e.n1 e.n2 ≠ ekey ed.1.1 ed.1.2 := by
        rw [hkey]
        intro hc
        apply hkmem
        rw [hc, List.map_cons]
        exact List.mem_cons_self ed.1 (t.map (·.1))
      refine ⟨hn, fun hc => hkmem (List.mem_cons_of_mem ed.1 hc),
        by simp only; omega, ?_⟩
      refine ⟨d', ?_, hh'⟩
      rw [getEdge_setEdgeData_other hkne]
      exact hd'
  · intro ed' hme
    rcases mem_setEdgeData_elim_strong hme with ⟨h2, h3⟩ | h2
    · rcases hQ.itemGood ed' h2 with h4 | h4
      · rcases List.mem_cons.mp h4 with h5 | h5
        · rw [hkey] at h3
          exact absurd h5 h3
        · exact Or.inl h5
      · refine Or.inr ?_
        intro i hi
        have := h4 i hi
        simp only
        omega
    · refine Or.inr ?_
      intro i hi
      rw [h2] at hi
      simp only at hi
      injection hi with hi2
      simp only
      omega
  · exact hQ.latch

theorem initInv_fold {g0 : RAG} (l : List ((Nat × Nat) × EdgeData))
    (hl : ∀ ed ∈ l, ed.1 ∈ edgeKeys g0 ∧ ed.1.1 < ed.1.2)
    (hlnd : (l.map (·.1)).Nodup) {s : LoopState} (hQ : InitInv g0 l s) :
    InitInv g0 [] (l.foldl initHeapStep s) := by
  induction l generalizing s with
  | nil => exact hQ
  | cons ed t ih =>
    rw [List.map_cons, List.nodup_cons] at hlnd
    rw [List.foldl_cons]
    exact ih (fun e he => hl e (List.mem_cons_of_mem ed he)) hlnd.2
      (initInv_step (hl ed (List.mem_cons_self ed t)) hlnd.1 hQ)

theorem initAgg_fold_counters (mmu : Int) (l : List (Nat × Region)) (g : RAG) :
    (l.foldl (initAggStep mmu) g).numGeMmu = g.numGeMmu + numGeScratch l mmu ∧
      (l.foldl (initAggStep mmu) g).areaLtMmu = g.areaLtMmu + areaLtScratch l mmu := by
  induction l generalizing g with
  | nil =>
    constructor <;> simp [numGeScratch, areaLtScratch]
  | cons p t ih =>
    rw [List.foldl_cons]
    obtain ⟨ih1, ih2⟩ := ih (initAggStep mmu g p)
    have hnum : numGeScratch (p :: t) mmu =
        numGeScratch t mmu + ind (p.2.pixelCount ≥ mmu) := by
      rw [numGeScratch_eq_sumBy, numGeScratch_eq_sumBy]
      unfold sumBy
      rw [List.map_cons, List.sum_cons]
      ring
    have harea : areaLtScratch (p :: t) mmu =
        areaLtScratch t mmu + ind (p.2.pixelCount < mmu) * p.2.pixelCount := by
      rw [areaLtScratch_eq_sumBy, areaLtScratch_eq_sumBy]
      unfold sumBy
      rw [List.map_cons, List.sum_cons]
      ring
    constructor
    · rw [ih1, hnum]
      unfold initAggStep ind
      by_cases h : p.2.pixelCount < mmu
      · rw [if_pos h, if_neg (by omega)]
        simp
      · rw [if_neg h, if_pos (by omega)]
        simp only
        ring
    · rw [ih2, harea]
      unfold initAggStep ind
      by_cases h : p.2.pixelCount < mmu
      · rw [if_pos h, if_pos h]
        simp only
        ring
      · rw [if_neg h, if_neg h]
        simp

theorem initAggregates_counters (mmu : Int) (g : RAG) :
    (initAggregates mmu g).numGeMmu = numGeScratch g.nodes mmu ∧
      (initAggregates mmu g).areaLtMmu = areaLtScratch g.nodes mmu := by
  unfold initAggregates
  obtain ⟨h1, h2⟩ := initAgg_fold_counters mmu g.nodes { g with numGeMmu := 0, areaLtMmu := 0 }
  constructor
  · rw [h1]
    simp
  · rw [h2]
    simp

theorem totalAreaOf_fold (l : List (Nat × Region)) :
    ∀ a : Int, l.foldl (fun a p => a + p.2.pixelCount) a = a + areaSum l := by
  induction l with
  | nil => intro a; simp [areaSum]
  | cons p t ih =>
    intro a
    rw [List.foldl_cons, ih]
    unfold areaSum
    rw [List.map_cons, List.sum_cons]
    ring

theorem totalAreaOf_eq (g : RAG) : totalAreaOf g = areaSum g.nodes := by
  unfold totalAreaOf
  rw [totalAreaOf_fold]
  simp

/-- The state entering the main loop satisfies the full loop invariant. -/
theorem initState_inv {g : RAG} (hWF : GraphWF g) (mmu : Int) :
    Inv mmu (areaSum g.nodes) (initState mmu g) := by
  have hagg := initAggregates_counters mmu g
  have hn := initAggregates_nodes mmu g
  have he := initAggregates_edges mmu g
  have hWF0 : GraphWF (initAggregates mmu g) :=
    wfOfKeys hWF (by unfold nodeKeys; rw [hn]) (by unfold edgeKeys; rw [he])
  have hQ0 : InitInv (initAggregates mmu g) (initAggregates mmu g).edges
      ⟨initAggregates mmu g, [], (fun _ => false), 0, false⟩ := by
    refine ⟨rfl, rfl, rfl, rfl, ?_, ?_, rfl⟩
    · intro e hme
      cases hme
    · intro ed hme
      exact Or.inl (List.mem_map_of_mem (·.1) hme)
  have hQ := initInv_fold (initAggregates mmu g).edges
    (fun ed hed => ⟨List.mem_map_of_mem (·.1) hed, hWF0.edgeNorm ed hed⟩)
    hWF0.edgesNodup hQ0
  have hstate : initState mmu g =
      (initAggregates mmu g).edges.foldl initHeapStep
        ⟨initAggregates mmu g, [], (fun _ => false), 0, false⟩ := rfl
  rw [hstate]
  set sF := (initAggregates mmu g).edges.foldl initHeapStep
    ⟨initAggregates mmu g, [], (fun _ => false), 0, false⟩ with hsF
  refine ⟨?_, ?_, ?_, ?_, ?_, ?_, ?_⟩
  · exact wfOfKeys hWF0 (by unfold nodeKeys; rw [hQ.nodesEq]) hQ.keysEq
  · intro e hme hv
    exact (hQ.heapGood e hme).2.2.2
  · intro e hme
    exact (hQ.heapGood e hme).2.2.1
  · intro ed hme i hi
    rcases hQ.itemGood ed hme with h2 | h2
    · cases h2
    · exact h2 i hi
  · rw [hQ.numEq, hagg.1, hQ.nodesEq, hn]
  · rw [hQ.areaEq, hagg.2, hQ.nodesEq, hn]
  · rw [hQ.nodesEq, hn]

end Scrm

namespace Scrm

/-! ## The merge branch of the loop -/

/-- The in-place merge branch of one loop iteration (lines 147-164), with the
already-computed latch value `stop`. -/
def mergeBranch (mergeFn : MergeFn) (wf : WeightFn) (mmu : Int) (stop : Bool)
    (s : LoopState) (e : Entry) (rest : List Entry) : LoopState :=
  let vm1 := invalidateNeighbors s.rag s.valid e.n1
  let vm2 := invalidateNeighbors s.rag vm1 e.n2
  let g1 := mergeFn s.rag e.n1 e.n2 mmu
  let gnew := merge_nodes g1 e.n1 e.n2 wf true
  let z := revalidate_node_edges gnew.2 gnew.1 rest vm2 s.nextEid
  ⟨z.1, z.2.1, z.2.2.1, z.2.2.2, stop⟩

theorem step_merge_eq {mergeFn : MergeFn} {wf : WeightFn}
    {mas mmu dms efn : Int} {s : LoopState} {e : Entry} {rest : List Entry}
    (hpop : popMin s.heap = some (e, rest))
    (hv : (if s.valid e.eid then sizeValid mas mmu (latchUpdate dms efn s)
        (nodeArea s.rag e.n1) (nodeArea s.rag e.n2) else s.valid e.eid) = true) :
    step mergeFn wf true mas mmu dms efn s =
      mergeBranch mergeFn wf mmu (latchUpdate dms efn s) s e rest := by
  unfold step mergeBranch
  rw [hpop]
  simp only [hv, if_true]

theorem getNode_setNode_other {g : RAG} {n m : Nat} (hne : m ≠ n) (r : Region) :
    getNode (setNode g n r) m = getNode g m := by
  unfold getNode
  rw [setNode_nodes]
  congr 1
  unfold setNodeList
  induction g.nodes with
  | nil => rfl
  | cons p t ih =>
    rw [List.map_cons]
    by_cases hp : p.1 = n
    · rw [if_pos hp]
      rw [List.find?_cons_of_neg _ (by simpa using (Ne.symm hne)),
        List.find?_cons_of_neg _ (by simp [hp]; exact Ne.symm hne), ih]
    · rw [if_neg hp]
      by_cases hm : p.1 = m
      · rw [List.find?_cons_of_pos _ (by simp [hm]),
          List.find?_cons_of_pos _ (by simp [hm])]
      · rw [List.find?_cons_of_neg _ (by simp [hm]),
          List.find?_cons_of_neg _ (by simp [hm]), ih]

theorem getEdge_congr_edges {g g' : RAG} (h : g.edges = g'.edges) (a b : Nat) :
    getEdge g a b = getEdge g' a b := by
  unfold getEdge
  rw [h]

theorem invalidateNeighbors_false {g : RAG} {v : Nat → Bool} {n j : Nat}
    (h : v j = false) : invalidateNeighbors g v n j = false :=
  foldl_invalidate_false g n (neighbors g n) v j h

theorem nodup_sub_len {l L : List Nat} (hnd : l.Nodup)
    (hsub : ∀ x ∈ l, x ∈ L) {a : Nat} (ha : a ∈ L) (hal : a ∉ l) :
    l.length + 1 ≤ L.length := by
  have h1 : (a :: l).Nodup := List.nodup_cons.mpr ⟨hal, hnd⟩
  have h2 : (a :: l).toFinset ⊆ L.toFinset := by
    intro x hx
    rw [List.mem_toFinset] at hx ⊢
    rcases List.mem_cons.mp hx with h3 | h3
    · exact h3 ▸ ha
    · exact hsub x h3
  have h3 := Finset.card_le_card h2
  rw [List.toFinset_card_of_nodup h1] at h3
  have h4 := L.toFinset_card_le
  rw [List.length_cons] at h3
  omega

theorem sumBy_merge_shape (f : Region → Int) {nodes : List (Nat × Region)}
    (hnd : (nodes.map (·.1)).Nodup) {n1 n2 : Nat} {rs rd : Region}
    (hmem_s : (n1, rs) ∈ nodes) (hmem_d : (n2, rd) ∈ nodes) (hne : n1 ≠ n2)
    (c1 c2 : Region) :
    sumBy f (eraseKeyList (setNodeList (setNodeList nodes n2 c1) n2 c2) n1) =
      sumBy f nodes + f c2 - f rd - f rs := by
  have hnd1 : ((setNodeList nodes n2 c1).map (·.1)).Nodup := by
    rw [keys_setNodeList]
    exact hnd
  have hnd2 : ((setNodeList (setNodeList nodes n2 c1) n2 c2).map (·.1)).Nodup := by
    rw [keys_setNodeList]
    exact hnd1
  have hm1 : (n2, c1) ∈ setNodeList nodes n2 c1 := mem_setNodeList_self hmem_d c1
  have hm2 : (n1, rs) ∈ setNodeList (setNodeList nodes n2 c1) n2 c2 :=
    mem_setNodeList_other (mem_setNodeList_other hmem_s hne c1) hne c2
  rw [sumBy_eraseKeyList f hnd2 hm2, sumBy_setNodeList f hnd1 hm1 c2,
    sumBy_setNodeList f hnd hmem_d c1]
  ring

end Scrm

namespace Scrm

set_option maxHeartbeats 1000000

/-- An accepted merge preserves the loop invariant and strictly decreases the
loop measure: the popped pair is live and distinct, both neighborhoods are
invalidated, the region store is updated by `merge_scrm`'s exact deltas, the
survivor's edges are revalidated with fresh items, and one live node is
consumed. -/
theorem mergeBranch_inv {wf : WeightFn} {mmu A : Int} {stop : Bool}
    {s : LoopState} (hInv : Inv mmu A s) {e : Entry} {rest : List Entry}
    (hsub : ∀ x ∈ rest, x ∈ s.heap) (hlen : rest.length + 1 = s.heap.length)
    (hvf : s.valid e.eid = true) (hmemE : e ∈ s.heap) :
    Inv mmu A (mergeBranch merge_scrm wf mmu stop s e rest) ∧
      mscFuel (mergeBranch merge_scrm wf mmu stop s e rest) < mscFuel s := by
  obtain ⟨d_e, hde, hdi⟩ := hInv.heapEdge e hmemE hvf
  have hmem_e := mem_of_getEdge hde
  have hnorm_e := hInv.wf.edgeNorm _ hmem_e
  have hne12 : e.n1 ≠ e.n2 := by
    intro hc
    rcases ekey_or e.n1 e.n2 with hek | hek <;>
      (rw [hek] at hnorm_e; simp only at hnorm_e; omega)
  have hlive1 : e.n1 ∈ nodeKeys s.rag := by
    rcases ekey_or e.n1 e.n2 with hek | hek
    · have := hInv.wf.edgeLiveL _ hmem_e
      rw [hek] at this
      exact this
    · have := hInv.wf.edgeLiveR _ hmem_e
      rw [hek] at this
      exact this
  have hlive2 : e.n2 ∈ nodeKeys s.rag := by
    rcases ekey_or e.n1 e.n2 with hek | hek
    · have := hInv.wf.edgeLiveR _ hmem_e
      rw [hek] at this
      exact this
    · have := hInv.wf.edgeLiveL _ hmem_e
      rw [hek] at this
      exact this
  obtain ⟨rs, hrs⟩ := getNode_isSome_of_mem_keys hInv.wf.nodesNodup hlive1
  obtain ⟨rd, hrd⟩ := getNode_isSome_of_mem_keys hInv.wf.nodesNodup hlive2
  -- the two invalidation sweeps
  have hvm2_mono : ∀ j : Nat,
      invalidateNeighbors s.rag (invalidateNeighbors s.rag s.valid e.n1) e.n2 j
        = true → s.valid j = true :=
    fun j hj => invalidateNeighbors_monotone (invalidateNeighbors_monotone hj)
  have hvm2_kills : ∀ ed ∈ s.rag.edges,
      (ed.1.1 = e.n1 ∨ ed.1.2 = e.n1 ∨ ed.1.1 = e.n2 ∨ ed.1.2 = e.n2) →
      ∀ i : Nat, ed.2.heapItem = some i →
      invalidateNeighbors s.rag (invalidateNeighbors s.rag s.valid e.n1) e.n2 i
        = false := by
    intro ed hm hinc i hh
    rcases hinc with h1 | h1 | h1 | h1
    · exact invalidateNeighbors_false
        (invalidateNeighbors_kills hInv.wf hm (Or.inl h1) hh s.valid)
    · exact invalidateNeighbors_false
        (invalidateNeighbors_kills hInv.wf hm (Or.inr h1) hh s.valid)
    · exact invalidateNeighbors_kills hInv.wf hm (Or.inl h1) hh _
    · exact invalidateNeighbors_kills hInv.wf hm (Or.inr h1) hh _
  -- the merge_scrm update
  have hg1nodes : (merge_scrm s.rag e.n1 e.n2 mmu).nodes =
      setNodeList s.rag.nodes e.n2
        { rd with
          totalColor := List.zipWith (· + ·) rd.totalColor rs.totalColor
          pixelCount := rd.pixelCount + rs.pixelCount
          meanColor := (List.zipWith (· + ·) rd.totalColor rs.totalColor).map
            (fun c => c / ((rd.pixelCount + rs.pixelCount : Int) : ℚ)) } := by
    simp only [merge_scrm, hrs, hrd]
    rfl
  have hg1edges : (merge_scrm s.rag e.n1 e.n2 mmu).edges = s.rag.edges := by
    simp only [merge_scrm, hrs, hrd]
    rfl
  have hg1num : (merge_scrm s.rag e.n1 e.n2 mmu).numGeMmu = s.rag.numGeMmu +
      (ind (rd.pixelCount + rs.pixelCount ≥ mmu) - ind (rs.pixelCount ≥ mmu) -
        ind (rd.pixelCount ≥ mmu)) := by
    simp only [merge_scrm, hrs, hrd]
    rfl
  have hg1area : (merge_scrm s.rag e.n1 e.n2 mmu).areaLtMmu = s.rag.areaLtMmu +
      (ind (rd.pixelCount + rs.pixelCount < mmu) * (rd.pixelCount + rs.pixelCount) -
        ind (rs.pixelCount < mmu) * rs.pixelCount -
        ind (rd.pixelCount < mmu) * rd.pixelCount) := by
    simp only [merge_scrm, hrs, hrd]
    rfl
  have hWF1 : GraphWF (merge_scrm s.rag e.n1 e.n2 mmu) := by
    refine wfOfKeys hInv.wf ?_ ?_
    · unfold nodeKeys
      rw [hg1nodes, keys_setNodeList]
    · unfold edgeKeys
      rw [hg1edges]
  have hgs1 : getNode (merge_scrm s.rag e.n1 e.n2 mmu) e.n1 = some rs := by
    have h2 : getNode (merge_scrm s.rag e.n1 e.n2 mmu) e.n1 =
        getNode (setNode s.rag e.n2
          { rd with
            totalColor := List.zipWith (· + ·) rd.totalColor rs.totalColor
            pixelCount := rd.pixelCount + rs.pixelCount
            meanColor := (List.zipWith (· + ·) rd.totalColor rs.totalColor).map
              (fun c => c / ((rd.pixelCount + rs.pixelCount : Int) : ℚ)) })
          e.n1 := by
      unfold getNode
      rw [hg1nodes, setNode_nodes]
    rw [h2, getNode_setNode_other hne12]
    exact hrs
  have hgd1 : getNode (merge_scrm s.rag e.n1 e.n2 mmu) e.n2 = some
      { rd with
        totalColor := List.zipWith (· + ·) rd.totalColor rs.totalColor
        pixelCount := rd.pixelCount + rs.pixelCount
        meanColor := (List.zipWith (· + ·) rd.totalColor rs.totalColor).map
          (fun c => c / ((rd.pixelCount + rs.pixelCount : Int) : ℚ)) } := by
    have h2 : getNode (merge_scrm s.rag e.n1 e.n2 mmu) e.n2 =
        getNode (setNode s.rag e.n2
          { rd with
            totalColor := List.zipWith (· + ·) rd.totalColor rs.totalColor
            pixelCount := rd.pixelCount + rs.pixelCount
            meanColor := (List.zipWith (· + ·) rd.totalColor rs.totalColor).map
              (fun c => c / ((rd.pixelCount + rs.pixelCount : Int) : ℚ)) })
          e.n2 := by
      unfold getNode
      rw [hg1nodes, setNode_nodes]
    rw [h2]
    exact getNode_setNode_self hrd _
  obtain ⟨hm0, hm1, hm2, hm3, hm4, hm5, hm6, hm7, hm8⟩ :=
    merge_nodes_spec hWF1 hgs1 hgd1 hne12 wf
  -- freshness of the post-merge graph
  have hfresh4 : ∀ ed ∈ (merge_nodes (merge_scrm s.rag e.n1 e.n2 mmu) e.n1 e.n2
      wf true).1.edges, ∀ i : Nat, ed.2.heapItem = some i → i < s.nextEid := by
    intro ed hme i hi
    obtain ⟨ed₀, hed₀, hh₀⟩ := hm4 ed hme i hi
    rw [hg1edges] at hed₀
    exact hInv.edgeFresh ed₀ hed₀ i hh₀
  -- the revalidation sweep
  have hQ0 : RevalInv (merge_nodes (merge_scrm s.rag e.n1 e.n2 mmu) e.n1 e.n2
      wf true).1 e.n2 rest
      (invalidateNeighbors s.rag (invalidateNeighbors s.rag s.valid e.n1) e.n2)
      s.nextEid
      (neighbors (merge_nodes (merge_scrm s.rag e.n1 e.n2 mmu) e.n1 e.n2
        wf true).1 e.n2)
      ⟨(merge_nodes (merge_scrm s.rag e.n1 e.n2 mmu) e.n1 e.n2 wf true).1, rest,
       invalidateNeighbors s.rag (invalidateNeighbors s.rag s.valid e.n1) e.n2,
       s.nextEid⟩ := by
    refine ⟨rfl, rfl, rfl, rfl, Nat.le_refl _, hfresh4, ?_, ?_, fun _ _ => rfl,
      fun _ _ _ _ => rfl, fun j hj _ => hj⟩
    · intro j hj1 hj2
      have hj2' : j < s.nextEid := hj2
      have hj1' : s.nextEid ≤ j := hj1
      exact absurd hj2' (by omega)
    · intro e' he'
      exact Or.inl he'
  have hQ := revalInv_fold hfresh4 _
    (fun x hx => ⟨getEdge_of_mem_neighbors hm2 hx, neighbors_ne hm2 hx⟩)
    (neighbors_nodup hm2 e.n2) hQ0
  -- the final state
  have hMBeq : mergeBranch merge_scrm wf mmu stop s e rest =
      ⟨((neighbors (merge_nodes (merge_scrm s.rag e.n1 e.n2 mmu) e.n1 e.n2
          wf true).1 e.n2).foldl (revalStep e.n2)
          ⟨(merge_nodes (merge_scrm s.rag e.n1 e.n2 mmu) e.n1 e.n2 wf true).1,
           rest,
           invalidateNeighbors s.rag (invalidateNeighbors s.rag s.valid e.n1)
             e.n2, s.nextEid⟩).1,
       ((neighbors (merge_nodes (merge_scrm s.rag e.n1 e.n2 mmu) e.n1 e.n2
          wf true).1 e.n2).foldl (revalStep e.n2)
          ⟨(merge_nodes (merge_scrm s.rag e.n1 e.n2 mmu) e.n1 e.n2 wf true).1,
           rest,
           invalidateNeighbors s.rag (invalidateNeighbors s.rag s.valid e.n1)
             e.n2, s.nextEid⟩).2.1,
       ((neighbors (merge_nodes (merge_scrm s.rag e.n1 e.n2 mmu) e.n1 e.n2
          wf true).1 e.n2).foldl (revalStep e.n2)
          ⟨(merge_nodes (merge_scrm s.rag e.n1 e.n2 mmu) e.n1 e.n2 wf true).1,
           rest,
           invalidateNeighbors s.rag (invalidateNeighbors s.rag s.valid e.n1)
             e.n2, s.nextEid⟩).2.2.1,
       ((neighbors (merge_nodes (merge_scrm s.rag e.n1 e.n2 mmu) e.n1 e.n2
          wf true).1 e.n2).foldl (revalStep e.n2)
          ⟨(merge_nodes (merge_scrm s.rag e.n1 e.n2 mmu) e.n1 e.n2 wf true).1,
           rest,
           invalidateNeighbors s.rag (invalidateNeighbors s.rag s.valid e.n1)
             e.n2, s.nextEid⟩).2.2.2,
       stop⟩ := by
    simp only [mergeBranch, revalidate_node_edges]
    rw [hm0]
  rw [hMBeq]
  set g4 := (merge_nodes (merge_scrm s.rag e.n1 e.n2 mmu) e.n1 e.n2 wf true).1
    with hg4
  set vm2 := invalidateNeighbors s.rag (invalidateNeighbors s.rag s.valid e.n1)
    e.n2 with hvm2def
  set Z := (neighbors g4 e.n2).foldl (revalStep e.n2) ⟨g4, rest, vm2, s.nextEid⟩
    with hZdef
  have hnd0 : (s.rag.nodes.map (·.1)).Nodup := hInv.wf.nodesNodup
  have hmem_rs0 : (e.n1, rs) ∈ s.rag.nodes := mem_of_getNode hrs
  have hmem_rd0 : (e.n2, rd) ∈ s.rag.nodes := mem_of_getNode hrd
  have hZn : Z.1.nodes = eraseKeyList (setNodeList (setNodeList s.rag.nodes e.n2
      { rd with
        totalColor := List.zipWith (· + ·) rd.totalColor rs.totalColor
        pixelCount := rd.pixelCount + rs.pixelCount
        meanColor := (List.zipWith (· + ·) rd.totalColor rs.totalColor).map
          (fun c => c / ((rd.pixelCount + rs.pixelCount : Int) : ℚ)) }) e.n2
      { ({ rd with
          totalColor := List.zipWith (· + ·) rd.totalColor rs.totalColor
          pixelCount := rd.pixelCount + rs.pixelCount
          meanColor := (List.zipWith (· + ·) rd.totalColor rs.totalColor).map
            (fun c => c / ((rd.pixelCount + rs.pixelCount : Int) : ℚ)) } : Region)
        with labels := rs.labels ++
          ({ rd with
            totalColor := List.zipWith (· + ·) rd.totalColor rs.totalColor
            pixelCount := rd.pixelCount + rs.pixelCount
            meanColor := (List.zipWith (· + ·) rd.totalColor rs.totalColor).map
              (fun c => c / ((rd.pixelCount + rs.pixelCount : Int) : ℚ)) } :
            Region).labels }) e.n1 := by
    rw [hQ.nodesEq, hm1, hg1nodes]
  refine ⟨⟨?_, ?_, ?_, ?_, ?_, ?_, ?_⟩, ?_⟩
  · exact wfOfKeys hm2 (by unfold nodeKeys; rw [hQ.nodesEq]) hQ.keysEq
  · intro e' he' hv'
    rcases hQ.heapShape e' he' with hrest | ⟨hn1, hn2nl, hn2ne, hle2, hlt2, d', hd', hh'⟩
    · have hfr : e'.eid < s.nextEid := hInv.heapFresh e' (hsub e' hrest)
      have hvm2t : vm2 e'.eid = true := hQ.oldProv e'.eid hv' hfr
      have hsv : s.valid e'.eid = true := hvm2_mono e'.eid hvm2t
      obtain ⟨d₀, hd₀, hh₀⟩ := hInv.heapEdge e' (hsub e' hrest) hsv
      have hmem₀ := mem_of_getEdge hd₀
      have hninc : ¬((ekey e'.n1 e'.n2).1 = e.n1 ∨ (ekey e'.n1 e'.n2).2 = e.n1 ∨
          (ekey e'.n1 e'.n2).1 = e.n2 ∨ (ekey e'.n1 e'.n2).2 = e.n2) := by
        intro hc
        have hfalse := hvm2_kills _ hmem₀ hc e'.eid hh₀
        rw [hfalse] at hvm2t
        cases hvm2t
      have hcomps : e'.n1 ≠ e.n1 ∧ e'.n1 ≠ e.n2 ∧ e'.n2 ≠ e.n1 ∧ e'.n2 ≠ e.n2 := by
        rcases ekey_or e'.n1 e'.n2 with hek | hek <;> rw [hek] at hninc <;>
          push_neg at hninc
        · exact ⟨hninc.1, hninc.2.2.1, hninc.2.1, hninc.2.2.2⟩
        · exact ⟨hninc.2.1, hninc.2.2.2, hninc.1, hninc.2.2.1⟩
      refine ⟨d₀, ?_, hh₀⟩
      have hstep1 : getEdge Z.1 e'.n1 e'.n2 = getEdge g4 e'.n1 e'.n2 :=
        hQ.awayEq _ _ hcomps.2.1 hcomps.2.2.2
      have hstep2 : getEdge g4 e'.n1 e'.n2 =
          getEdge (merge_scrm s.rag e.n1 e.n2 mmu) e'.n1 e'.n2 :=
        hm3 _ _ hcomps.2.1 hcomps.2.2.2 hcomps.1 hcomps.2.2.1
      have hstep3 : getEdge (merge_scrm s.rag e.n1 e.n2 mmu) e'.n1 e'.n2 =
          getEdge s.rag e'.n1 e'.n2 := getEdge_congr_edges hg1edges _ _
      show getEdge Z.1 e'.n1 e'.n2 = some d₀
      rw [hstep1, hstep2, hstep3]
      exact hd₀
    · exact ⟨d', hd', hh'⟩
  · intro e' he'
    rcases hQ.heapShape e' he' with hrest | ⟨hn1, hn2nl, hn2ne, hle2, hlt2, hd⟩
    · have h1 : e'.eid < s.nextEid := hInv.heapFresh e' (hsub e' hrest)
      have h2 := hQ.eidLe
      show e'.eid < Z.2.2.2
      omega
    · exact hlt2
  · exact hQ.itemLt
  · show Z.1.numGeMmu = numGeScratch Z.1.nodes mmu
    rw [hQ.numEq, hm5, hg1num, hZn, numGeScratch_eq_sumBy,
      sumBy_merge_shape _ hnd0 hmem_rs0 hmem_rd0 hne12,
      ← numGeScratch_eq_sumBy, ← hInv.aggNum]
    show s.rag.numGeMmu +
        (ind (rd.pixelCount + rs.pixelCount ≥ mmu) - ind (rs.pixelCount ≥ mmu) -
          ind (rd.pixelCount ≥ mmu)) =
      s.rag.numGeMmu + ind (rd.pixelCount + rs.pixelCount ≥ mmu) -
        ind (rd.pixelCount ≥ mmu) - ind (rs.pixelCount ≥ mmu)
    ring
  · show Z.1.areaLtMmu = areaLtScratch Z.1.nodes mmu
    rw [hQ.areaEq, hm6, hg1area, hZn, areaLtScratch_eq_sumBy,
      sumBy_merge_shape _ hnd0 hmem_rs0 hmem_rd0 hne12,
      ← areaLtScratch_eq_sumBy, ← hInv.aggArea]
    show s.rag.areaLtMmu +
        (ind (rd.pixelCount + rs.pixelCount < mmu) *
            (rd.pixelCount + rs.pixelCount) -
          ind (rs.pixelCount < mmu) * rs.pixelCount -
          ind (rd.pixelCount < mmu) * rd.pixelCount) =
      s.rag.areaLtMmu +
        ind (rd.pixelCount + rs.pixelCount < mmu) *
          (rd.pixelCount + rs.pixelCount) -
        ind (rd.pixelCount < mmu) * rd.pixelCount -
        ind (rs.pixelCount < mmu) * rs.pixelCount
    ring
  · show areaSum Z.1.nodes = A
    rw [hZn, areaSum_eq_sumBy,
      sumBy_merge_shape _ hnd0 hmem_rs0 hmem_rd0 hne12,
      ← areaSum_eq_sumBy, hInv.area]
    show A + (rd.pixelCount + rs.pixelCount) - rd.pixelCount - rs.pixelCount = A
    ring
  · show Z.2.1.length + Z.1.nodes.length * Z.1.nodes.length <
        s.heap.length + s.rag.nodes.length * s.rag.nodes.length
    have hzlen : Z.2.1.length ≤ rest.length + (neighbors g4 e.n2).length :=
      reval_fold_len e.n2 (neighbors g4 e.n2) ⟨g4, rest, vm2, s.nextEid⟩
    have hnbr : (neighbors g4 e.n2).length + 1 ≤ (nodeKeys g4).length :=
      nodup_sub_len (neighbors_nodup hm2 e.n2)
        (fun x hx => neighbors_live hm2 hx) hm8
        (fun hc => neighbors_ne hm2 hc rfl)
    have hkeys : (nodeKeys g4).length = g4.nodes.length := by
      unfold nodeKeys
      exact List.length_map _ _
    have hg1len : (merge_scrm s.rag e.n1 e.n2 mmu).nodes.length =
        s.rag.nodes.length := by
      rw [hg1nodes]
      unfold setNodeList
      exact List.length_map _ _
    have hg4len : g4.nodes.length + 1 = s.rag.nodes.length := by
      rw [← hg1len]
      exact hm7
    have hznodes : Z.1.nodes.length = g4.nodes.length := by rw [hQ.nodesEq]
    rw [hznodes]
    have hsr : s.rag.nodes.length = g4.nodes.length + 1 := hg4len.symm
    rw [hsr, ← hlen]
    have hexp : (g4.nodes.length + 1) * (g4.nodes.length + 1) =
        g4.nodes.length * g4.nodes.length + 2 * g4.nodes.length + 1 := by ring
    rw [hexp]
    generalize g4.nodes.length * g4.nodes.length = q
    omega


/-! ## Preservation of the invariant by one loop iteration, and the loop -/

theorem step_preserves {wf : WeightFn} {mas mmu dms efn A : Int}
    {s : LoopState} (hInv : Inv mmu A s) (hne : s.heap ≠ []) :
    Inv mmu A (step merge_scrm wf true mas mmu dms efn s) ∧
      mscFuel (step merge_scrm wf true mas mmu dms efn s) < mscFuel s := by
  cases hpop : popMin s.heap with
  | none => exact absurd (popMin_none_eq_nil hpop) hne
  | some pr =>
    obtain ⟨e, rest⟩ := pr
    have hlen := popMin_length hpop
    have hsub := popMin_rest_sub hpop
    have hmem := popMin_mem hpop
    cases hv : (if s.valid e.eid then sizeValid mas mmu (latchUpdate dms efn s)
        (nodeArea s.rag e.n1) (nodeArea s.rag e.n2) else s.valid e.eid) with
    | false =>
      rw [step_discard hpop hv]
      refine ⟨⟨hInv.wf, ?_, ?_, hInv.edgeFresh, hInv.aggNum, hInv.aggArea,
        hInv.area⟩, ?_⟩
      · intro e' he' hv'
        exact hInv.heapEdge e' (hsub e' he') hv'
      · intro e' he'
        exact hInv.heapFresh e' (hsub e' he')
      · show rest.length + s.rag.nodes.length * s.rag.nodes.length <
          s.heap.length + s.rag.nodes.length * s.rag.nodes.length
        omega
    | true =>
      have hvf : s.valid e.eid = true := by
        cases hvf : s.valid e.eid
        · rw [hvf] at hv
          simp at hv
        · rfl
      rw [step_merge_eq hpop hv]
      exact mergeBranch_inv hInv hsub hlen hvf hmem

theorem loop_inv (wf : WeightFn) (mas mmu dms efn A : Int) :
    ∀ (fuel : Nat) (s : LoopState), Inv mmu A s →
      Inv mmu A (loop merge_scrm wf true mas mmu dms efn fuel s) := by
  intro fuel
  induction fuel with
  | zero =>
    intro s h
    exact h
  | succ k ih =>
    intro s h
    have hunf : loop merge_scrm wf true mas mmu dms efn (k + 1) s =
        if s.heap = [] then s
        else loop merge_scrm wf true mas mmu dms efn k
          (step merge_scrm wf true mas mmu dms efn s) := rfl
    rw [hunf]
    by_cases hh : s.heap = []
    · rw [if_pos hh]
      exact h
    · rw [if_neg hh]
      exact ih _ (step_preserves h hh).1

theorem loop_drains (wf : WeightFn) (mas mmu dms efn A : Int) :
    ∀ (fuel : Nat) (s : LoopState), Inv mmu A s → mscFuel s ≤ fuel →
      (loop merge_scrm wf true mas mmu dms efn fuel s).heap = [] := by
  intro fuel
  induction fuel with
  | zero =>
    intro s _ hf
    have h1 : s.heap.length = 0 := by
      unfold mscFuel at hf
      omega
    exact List.eq_nil_of_length_eq_zero h1
  | succ k ih =>
    intro s h hf
    have hunf : loop merge_scrm wf true mas mmu dms efn (k + 1) s =
        if s.heap = [] then s
        else loop merge_scrm wf true mas mmu dms efn k
          (step merge_scrm wf true mas mmu dms efn s) := rfl
    rw [hunf]
    by_cases hh : s.heap = []
    · rw [if_pos hh]
      exact hh
    · rw [if_neg hh]
      obtain ⟨hInv', hlt⟩ : Inv mmu A (step merge_scrm wf true mas mmu dms efn s) ∧
          mscFuel (step merge_scrm wf true mas mmu dms efn s) < mscFuel s :=
        step_preserves h hh
      exact ih _ hInv' (by omega)

/-- C1: at every point of the main loop (any number of iterations from the
initialized state, with the code's `merge_scrm` merge function, any weight
function and any parameters), the incrementally tracked counters `num_ge_mmu`
and `area_lt_mmu` of the graph equal their from-scratch recomputations over
all live regions: the count of live regions with `pixel_count >= mmu`, and the
sum of `pixel_count` over live regions with `pixel_count < mmu`. -/
theorem aggregate_consistency (wf : WeightFn) (mas mmu dms efn : Int)
    (g : RAG) (hWF : GraphWF g) (fuel : Nat) :
    (loop merge_scrm wf true mas mmu dms efn fuel
        (initState mmu g)).rag.numGeMmu =
      numGeScratch (loop merge_scrm wf true mas mmu dms efn fuel
        (initState mmu g)).rag.nodes mmu ∧
    (loop merge_scrm wf true mas mmu dms efn fuel
        (initState mmu g)).rag.areaLtMmu =
      areaLtScratch (loop merge_scrm wf true mas mmu dms efn fuel
        (initState mmu g)).rag.nodes mmu := by
  have h := loop_inv wf mas mmu dms efn (areaSum g.nodes) fuel
    (initState mmu g) (initState_inv hWF mmu)
  exact ⟨h.aggNum, h.aggArea⟩

theorem aggregate_consistency_witness :
    GraphWF ragTwo ∧
      ((loop merge_scrm wfZero true 10 3 1 2 5
          (initState 3 ragTwo)).rag.numGeMmu =
        numGeScratch (loop merge_scrm wfZero true 10 3 1 2 5
          (initState 3 ragTwo)).rag.nodes 3 ∧
      (loop merge_scrm wfZero true 10 3 1 2 5
          (initState 3 ragTwo)).rag.areaLtMmu =
        areaLtScratch (loop merge_scrm wfZero true 10 3 1 2 5
          (initState 3 ragTwo)).rag.nodes 3) :=
  ⟨⟨by decide, by decide, by decide, by decide, by decide⟩,
   aggregate_consistency wfZero 10 3 1 2 ragTwo
     ⟨by decide, by decide, by decide, by decide, by decide⟩ 5⟩

/-- C6: area conservation — after any number of main-loop iterations from the
initialized state, the sum of `pixel_count` over all live regions equals
`total_area`, the sum computed over the initial regions during
initialization; in particular every accepted merge preserves the sum. -/
theorem area_conservation (wf : WeightFn) (mas mmu dms efn : Int)
    (g : RAG) (hWF : GraphWF g) (fuel : Nat) :
    areaSum (loop merge_scrm wf true mas mmu dms efn fuel
      (initState mmu g)).rag.nodes = totalAreaOf g := by
  have h := loop_inv wf mas mmu dms efn (areaSum g.nodes) fuel
    (initState mmu g) (initState_inv hWF mmu)
  rw [h.area, totalAreaOf_eq]

theorem area_conservation_witness :
    GraphWF ragTwo ∧
      areaSum (loop merge_scrm wfZero true 10 3 1 2 5
        (initState 3 ragTwo)).rag.nodes = totalAreaOf ragTwo :=
  ⟨⟨by decide, by decide, by decide, by decide, by decide⟩,
   area_conservation wfZero 10 3 1 2 ragTwo
     ⟨by decide, by decide, by decide, by decide, by decide⟩ 5⟩

/-- C7: termination — on any finite well-formed input the main loop exhausts
the edge heap: with fuel `mscFuel` of the initialized state (heap size plus
the square of the region count, finite for finite inputs) the loop runs to a
state with an empty heap, because every discard removes the popped item and
every accepted merge removes a live region while pushing fewer items than
there are remaining regions. -/
theorem main_loop_exhausts_heap (wf : WeightFn) (mas mmu dms efn : Int)
    (g : RAG) (hWF : GraphWF g) :
    (loop merge_scrm wf true mas mmu dms efn
      (mscFuel (initState mmu g)) (initState mmu g)).heap = [] :=
  loop_drains wf mas mmu dms efn (areaSum g.nodes)
    (mscFuel (initState mmu g)) (initState mmu g)
    (initState_inv hWF mmu) (Nat.le_refl _)

theorem main_loop_exhausts_heap_witness :
    GraphWF ragTwo ∧
      (loop merge_scrm wfZero true 10 3 1 2
        (mscFuel (initState 3 ragTwo)) (initState 3 ragTwo)).heap = [] :=
  ⟨⟨by decide, by decide, by decide, by decide, by decide⟩,
   main_loop_exhausts_heap wfZero 10 3 1 2 ragTwo
     ⟨by decide, by decide, by decide, by decide, by decide⟩⟩

end Scrm
